import Mathlib

/-!
Verification of the memory-management core of the ithaca kernel
(`src/kernel/src/{address_space.rs, address_space/x86_64.rs, vmm.rs, pmm.rs,
types.rs, hhdm.rs}`).

Machine integers are modelled as `Nat` with explicit `% 2 ^ 64` or masking
where overflow or truncation matters.  Physical memory holding page tables is
modelled as a total function from the table's physical frame address to its
512 entry slots (the Rust code reaches those bytes through the fixed
direct-map alias `Hhdm::to_virtual`, a bijection, so addressing tables by
their physical frame address is the same memory).
-/

/-- Mask of the frame-address bits of a page-table entry:
`u64::MAX.wrapping_shl(13).wrapping_shr(1)` from `address_space/x86_64.rs`. -/
def FRAME_MASK : Nat := 0x7FFFFFFFFFFFF000

/-- Complement of `FRAME_MASK` within a 64-bit word (`!FRAME_MASK` in Rust). -/
def NOT_FRAME_MASK : Nat := 0x8000000000000FFF

/-- Union of all flag bits declared in the `PageFlags` bitflags:
PRESENT (1) | WRITABLE (2) | USER (4) | DISABLE_CACHE (16) | HUGE_PAGE (128). -/
def FLAGS_ALL : Nat := 0x97

/-- Bits of a page-table entry that belong to no declared flag
(the complement of `FLAGS_ALL` in a 64-bit word). -/
def NON_FLAG_MASK : Nat := 0xFFFFFFFFFFFFFF68

/-- `PageTableEntry::new(flags, frame)`: `Self(flags.bits() & !FRAME_MASK | frame.0.0)`. -/
def PageTableEntry.new (flags frame : Nat) : Nat :=
  (flags &&& NOT_FRAME_MASK) ||| frame

/-- `PageTableEntry::frame`: `Frame(PhysAddr(self.0 & FRAME_MASK))`. -/
def PageTableEntry.frame (e : Nat) : Nat := e &&& FRAME_MASK

/-- `entry.flags().contains(PageFlags::PRESENT)`:
`flags()` truncates to the declared flag bits, `contains` tests bit 0. -/
def presentBit (e : Nat) : Bool := (e &&& FLAGS_ALL) &&& 1 == 1

/-- `entry.flags().contains(PageFlags::HUGE_PAGE)`. -/
def hugeBit (e : Nat) : Bool := (e &&& FLAGS_ALL) &&& 128 == 128

/-- Physical memory viewed as page tables: table frame address -> slot -> raw entry. -/
def Mem : Type := Nat → Nat → Nat

/-- `entry_cell.set(v)` on slot `i` of the table at address `t`. -/
def Mem.write (mem : Mem) (t i v : Nat) : Mem :=
  fun a j => if a = t ∧ j = i then v else mem a j

/-- `ptr::write(page_table_ptr.as_ptr(), PageTable::empty())`: the freshly
allocated table at address `t` is zero-initialised (`Zeroable::zeroed`). -/
def Mem.zeroTable (mem : Mem) (t : Nat) : Mem :=
  fun a j => if a = t then 0 else mem a j

/-- Index slice of a virtual address for one paging level:
`vaddr.wrapping_shr(12 + 9 * level) & 0x1ff` (level 0 is the final level). -/
def levelIndex (vaddr l : Nat) : Nat := (vaddr >>> (12 + 9 * l)) &&& 0x1ff

/-- Outcome of the table-creating walk of `map_page` over the non-final levels.
`ok` carries the memory, the allocator, the final table address, the list of
table addresses visited (walk path, in order, final table included) and the
list of freshly allocated table frames.  `oom` is a failed
`phys_alloc.allocate_frame()?`; `huge` is the `todo!("huge page handling")`
panic. -/
inductive WalkRes (A : Type) where
  | ok (mem : Mem) (a : A) (table : Nat) (path : List Nat) (fresh : List Nat)
  | oom (mem : Mem) (a : A)
  | huge (mem : Mem) (a : A)

/-- The `for level in (1..4).rev()` loop of `PageMapper::map_page`: walk the
given levels starting from the table at address `table`, allocating, zeroing
and installing a fresh table (with flags PRESENT|WRITABLE|USER = 7) at each
absent entry, and descending through `entry.frame()`. -/
def walkCreate {A : Type} (alloc : A → Option Nat × A) (vaddr : Nat) :
    List Nat → Mem → A → Nat → WalkRes A
  | [], mem, a, table => .ok mem a table [table] []
  | l :: ls, mem, a, table =>
    let i := levelIndex vaddr l
    let e := mem table i
    if presentBit e then
      if hugeBit e then .huge mem a
      else
        match walkCreate alloc vaddr ls mem a (PageTableEntry.frame e) with
        | .ok mem' a' t' path fresh => .ok mem' a' t' (table :: path) fresh
        | .oom mem' a' => .oom mem' a'
        | .huge mem' a' => .huge mem' a'
    else
      match alloc a with
      | (none, a1) => .oom mem a1
      | (some f, a1) =>
        let e1 := PageTableEntry.new 7 f
        let mem2 := (mem.zeroTable f).write table i e1
        match walkCreate alloc vaddr ls mem2 a1 (PageTableEntry.frame e1) with
        | .ok mem' a' t' path fresh => .ok mem' a' t' (table :: path) (f :: fresh)
        | .oom mem' a' => .oom mem' a'
        | .huge mem' a' => .huge mem' a'

/-- The read-only walk shared by `get_entry`: descend through present entries,
returning the final table address, or `none` at any absent level. -/
def walkRead (vaddr : Nat) : List Nat → Mem → Nat → Option Nat
  | [], _, table => some table
  | l :: ls, mem, table =>
    let e := mem table (levelIndex vaddr l)
    if presentBit e then walkRead vaddr ls mem (PageTableEntry.frame e)
    else none

/-- Whether every present entry met by the read walk is free of the
HUGE_PAGE flag (the walk of `map_page` hits `todo!` on such an entry). -/
def readPathNoHuge (vaddr : Nat) : List Nat → Mem → Nat → Bool
  | [], _, _ => true
  | l :: ls, mem, table =>
    let e := mem table (levelIndex vaddr l)
    if presentBit e then
      !hugeBit e && readPathNoHuge vaddr ls mem (PageTableEntry.frame e)
    else true

/-- `PageMapper`: the four-level hierarchy rooted at the level-4 table
discovered from `cr3` (`l4` is its physical frame address). -/
structure PageMapper where
  mem : Mem
  l4 : Nat

/-- Result of `PageMapper::map_page`.  `panicHuge` is the `todo!` panic on a
huge-page leaf at a non-final level. -/
inductive MapResult where
  | ok
  | errPhysAlloc
  | errAlreadyMapped
  | panicHuge
deriving DecidableEq, Repr

/-- `PageMapper::map_page(page, frame, flags, phys_alloc)`: walk levels 3..1
creating missing tables, then fail with `PageAlreadyMapped` if the final slot
is present, else write `PageTableEntry::new(flags, frame)` there. -/
def PageMapper.map_page {A : Type} (alloc : A → Option Nat × A) (m : PageMapper)
    (a : A) (page frame flags : Nat) : MapResult × PageMapper × A :=
  match walkCreate alloc page [3, 2, 1] m.mem a m.l4 with
  | .huge mem a1 => (.panicHuge, ⟨mem, m.l4⟩, a1)
  | .oom mem a1 => (.errPhysAlloc, ⟨mem, m.l4⟩, a1)
  | .ok mem a1 t _ _ =>
    let i := levelIndex page 0
    if presentBit (mem t i) then (.errAlreadyMapped, ⟨mem, m.l4⟩, a1)
    else (.ok, ⟨mem.write t i (PageTableEntry.new flags frame), m.l4⟩, a1)

/-- `PageMapper::get_entry(addr)`: read-only walk to the final slot. -/
def PageMapper.get_entry (m : PageMapper) (addr : Nat) : Option (Nat × Nat) :=
  (walkRead addr [3, 2, 1] m.mem m.l4).map (fun t => (t, levelIndex addr 0))

/-- `PageMapper::translate_page(page)`: the mapped frame, or `none`. -/
def PageMapper.translate_page (m : PageMapper) (page : Nat) : Option Nat :=
  match m.get_entry page with
  | none => none
  | some (t, i) =>
    let e := m.mem t i
    if presentBit e then some (PageTableEntry.frame e) else none

/-- `PageMapper::unmap_page(page)`: walk without creating, fail with
`PageNotMapped` (`none`) if the slot is absent, else overwrite the slot with
`PageTableEntry::new(PageFlags::empty(), frame)` and return the frame. -/
def PageMapper.unmap_page (m : PageMapper) (page : Nat) :
    Option Nat × PageMapper :=
  match m.get_entry page with
  | none => (none, m)
  | some (t, i) =>
    let e := m.mem t i
    if presentBit e then
      let f := PageTableEntry.frame e
      (some f, ⟨m.mem.write t i (PageTableEntry.new 0 f), m.l4⟩)
    else (none, m)

/-- A simple list-backed physical allocator used to instantiate the
`PhysicalMemoryAllocator` parameter at concrete inputs: pops the head,
fails when empty. -/
def listAlloc : List Nat → Option Nat × List Nat
  | [] => (none, [])
  | f :: r => (some f, r)

example :
    (PageMapper.map_page listAlloc ⟨fun _ _ => 0, 0x1000⟩
      [0x2000, 0x3000, 0x4000] 0 0x7000 3).1 = .ok := by decide

example :
    ((PageMapper.map_page listAlloc ⟨fun _ _ => 0, 0x1000⟩
      [0x2000, 0x3000, 0x4000] 0 0x7000 3).2.1).translate_page 0 =
      some 0x7000 := by decide

/-! Bit-level facts about page-table entries. -/

theorem lor_land_distrib (a b c : Nat) :
    (a ||| b) &&& c = (a &&& c) ||| (b &&& c) := by
  apply Nat.eq_of_testBit_eq
  intro i
  simp [Nat.testBit_and, Nat.testBit_or, Bool.and_or_distrib_right]

/-- A frame address inside the frame bit-field has a clear bit 0. -/
theorem aligned_land_one {f : Nat} (hf : f &&& FRAME_MASK = f) : f &&& 1 = 0 := by
  have h1 : FRAME_MASK &&& 1 = 0 := by decide
  calc f &&& 1 = (f &&& FRAME_MASK) &&& 1 := by rw [hf]
    _ = f &&& (FRAME_MASK &&& 1) := Nat.land_assoc ..
    _ = f &&& 0 := by rw [h1]
    _ = 0 := Nat.and_zero f

/-- The present test only looks at bit 0 of the raw entry. -/
theorem presentBit_eq (e : Nat) : presentBit e = (e &&& 1 == 1) := by
  have h1 : FLAGS_ALL &&& 1 = 1 := by decide
  rw [presentBit, Nat.land_assoc, h1]

/-- An entry built by `PageTableEntry::new` from present-including flags and
an in-field frame address has the present bit set. -/
theorem presentBit_new {g f : Nat} (hg : g &&& 1 = 1)
    (hf : f &&& FRAME_MASK = f) : presentBit (PageTableEntry.new g f) = true := by
  have h1 : NOT_FRAME_MASK &&& 1 = 1 := by decide
  have hN : (g &&& NOT_FRAME_MASK) &&& 1 = g &&& 1 := by
    rw [Nat.land_assoc, h1]
  rw [presentBit_eq, PageTableEntry.new, lor_land_distrib, hN, hg,
    aligned_land_one hf]
  rfl

/-- `PageTableEntry::new` then `PageTableEntry::frame` returns exactly the
frame written, for an in-field frame address. -/
theorem frame_new {g f : Nat} (hf : f &&& FRAME_MASK = f) :
    PageTableEntry.frame (PageTableEntry.new g f) = f := by
  have hNM : NOT_FRAME_MASK &&& FRAME_MASK = 0 := by decide
  rw [PageTableEntry.frame, PageTableEntry.new, lor_land_distrib,
    Nat.land_assoc, hNM, Nat.and_zero, Nat.zero_or, hf]

/-- A bare frame-field value (as written by `unmap_page`) is not present. -/
theorem presentBit_frame (e : Nat) : presentBit (PageTableEntry.frame e) = false := by
  have hM : FRAME_MASK &&& 1 = 0 := by decide
  rw [presentBit_eq, PageTableEntry.frame, Nat.land_assoc, hM, Nat.and_zero]
  rfl

/-- `PageTableEntry::new(PageFlags::empty(), f)` is just the raw frame bits. -/
theorem new_zero_flags (f : Nat) : PageTableEntry.new 0 f = f := by
  rw [PageTableEntry.new, Nat.zero_and, Nat.zero_or]

/-- In a nodup list the last element does not occur before the last position. -/
theorem getLast_not_mem_dropLast {l : List Nat} {x : Nat} (hnd : l.Nodup)
    (hl : l.getLast? = some x) : x ∉ l.dropLast := by
  induction l with
  | nil => simp at hl
  | cons a t ih =>
    cases t with
    | nil => simp
    | cons b t' =>
      rw [List.getLast?_cons_cons] at hl
      have hmem : x ∈ b :: t' := List.mem_of_getLast?_eq_some hl
      rw [List.dropLast_cons_of_ne_nil (by simp)]
      rcases List.nodup_cons.mp hnd with ⟨hna, hnd'⟩
      intro hx
      rcases List.mem_cons.mp hx with h | h
      · exact hna (h ▸ hmem)
      · exact ih hnd' hl h

/-- Prepending to a list with a known head preserves its last element. -/
theorem getLast?_cons_of_head? {l : List Nat} {c x : Nat} (hh : l.head? = some c)
    (hl : l.getLast? = some x) (a : Nat) : (a :: l).getLast? = some x := by
  cases l with
  | nil => simp at hh
  | cons b t =>
    rw [List.getLast?_cons_cons]
    exact hl

/-! Structural lemmas about the creating walk of `map_page`. -/

/-- The walk path returned by a successful `walkCreate` starts at the initial
table and ends at the returned final table. -/
theorem walkCreate_shape {A : Type} (alloc : A → Option Nat × A) (vaddr : Nat)
    (ls : List Nat) :
    ∀ (mem : Mem) (a : A) (t : Nat) (mem1 : Mem) (a1 : A) (t1 : Nat)
      (path fresh : List Nat),
      walkCreate alloc vaddr ls mem a t = .ok mem1 a1 t1 path fresh →
      path.head? = some t ∧ path.getLast? = some t1 := by
  induction ls with
  | nil =>
    intro mem a t mem1 a1 t1 path fresh h
    simp only [walkCreate] at h
    cases h
    simp
  | cons l ls ih =>
    intro mem a t mem1 a1 t1 path fresh h
    simp only [walkCreate] at h
    split at h
    · split at h
      · cases h
      · split at h
        · rename_i heq
          cases h
          rcases ih _ _ _ _ _ _ _ _ heq with ⟨hh, hl⟩
          exact ⟨by simp, getLast?_cons_of_head? hh hl _⟩
        · cases h
        · cases h
    · split at h
      · cases h
      · split at h
        · rename_i heq
          cases h
          rcases ih _ _ _ _ _ _ _ _ heq with ⟨hh, hl⟩
          exact ⟨by simp, getLast?_cons_of_head? hh hl _⟩
        · cases h
        · cases h

/-- A successful creating walk only writes memory at tables on its path
(the fresh zero-filled tables and the parent slots pointing at them),
provided the allocator handed out in-field (4096-aligned) frame addresses. -/
theorem walkCreate_mem_outside {A : Type} (alloc : A → Option Nat × A)
    (vaddr : Nat) (ls : List Nat) :
    ∀ (mem : Mem) (a : A) (t : Nat) (mem1 : Mem) (a1 : A) (t1 : Nat)
      (path fresh : List Nat),
      walkCreate alloc vaddr ls mem a t = .ok mem1 a1 t1 path fresh →
      (∀ u ∈ fresh, u &&& FRAME_MASK = u) →
      ∀ x, x ∉ path → ∀ j, mem1 x j = mem x j := by
  induction ls with
  | nil =>
    intro mem a t mem1 a1 t1 path fresh h hal x hx j
    simp only [walkCreate] at h
    cases h
    rfl
  | cons l ls ih =>
    intro mem a t mem1 a1 t1 path fresh h hal x hx j
    simp only [walkCreate] at h
    split at h
    · split at h
      · cases h
      · split at h
        · rename_i mem2 a3 t2 path2 fresh2 heq
          cases h
          have hx' : x ∉ path2 := fun hc => hx (List.mem_cons_of_mem _ hc)
          exact ih _ _ _ _ _ _ _ _ heq hal x hx' j
        · cases h
        · cases h
    · split at h
      · cases h
      · split at h
        · rename_i f a2 heqalloc xw mem2 a3 t2 path2 fresh2 heq
          cases h
          have half : f &&& FRAME_MASK = f := hal f (List.mem_cons_self f _)
          have hal' : ∀ u ∈ fresh2, u &&& FRAME_MASK = u :=
            fun u hu => hal u (List.mem_cons_of_mem _ hu)
          have hxt : x ≠ t := fun hc => hx (hc ▸ List.mem_cons_self x _)
          have hfr : PageTableEntry.frame (PageTableEntry.new 7 f) = f :=
            frame_new half
          have hhead := (walkCreate_shape alloc vaddr ls _ _ _ _ _ _ _ _ heq).1
          have hfp : f ∈ path2 := by
            rw [hfr] at hhead
            exact List.mem_of_mem_head? hhead
          have hxf : x ≠ f := fun hc => hx (List.mem_cons_of_mem _ (hc ▸ hfp))
          have hx' : x ∉ path2 := fun hc => hx (List.mem_cons_of_mem _ hc)
          rw [ih _ _ _ _ _ _ _ _ heq hal' x hx' j]
          simp [Mem.write, Mem.zeroTable, hxt, hxf]
        · cases h
        · cases h

/-- After a successful creating walk whose path tables are pairwise distinct,
the read-only walk for the same address reaches the same final table — in any
memory that agrees with the post-walk memory on the non-final path tables
(in particular the post-walk memory itself, or that memory after a write to
the final table). -/
theorem walkCreate_walkRead {A : Type} (alloc : A → Option Nat × A)
    (vaddr : Nat) (ls : List Nat) :
    ∀ (mem : Mem) (a : A) (t : Nat) (mem1 : Mem) (a1 : A) (t1 : Nat)
      (path fresh : List Nat) (rmem : Mem),
      walkCreate alloc vaddr ls mem a t = .ok mem1 a1 t1 path fresh →
      (∀ u ∈ fresh, u &&& FRAME_MASK = u) →
      path.Nodup →
      (∀ x ∈ path.dropLast, ∀ j, rmem x j = mem1 x j) →
      walkRead vaddr ls rmem t = some t1 := by
  induction ls with
  | nil =>
    intro mem a t mem1 a1 t1 path fresh rmem h hal hnd hag
    simp only [walkCreate] at h
    cases h
    rfl
  | cons l ls ih =>
    intro mem a t mem1 a1 t1 path fresh rmem h hal hnd hag
    simp only [walkCreate] at h
    split at h
    · split at h
      · cases h
      · rename_i hpres hnhuge
        split at h
        · rename_i mem2 a3 t2 path2 fresh2 heq
          cases h
          have hhead := (walkCreate_shape alloc vaddr ls _ _ _ _ _ _ _ _ heq).1
          have hne : path2 ≠ [] := by
            intro hc
            rw [hc] at hhead
            cases hhead
          have hdrop : (t :: path2).dropLast = t :: path2.dropLast :=
            List.dropLast_cons_of_ne_nil hne
          have hnt : t ∉ path2 := (List.nodup_cons.mp hnd).1
          have hagt : ∀ j, rmem t j = mem1 t j := by
            intro j
            apply hag
            rw [hdrop]
            exact List.mem_cons_self t _
          have houter : ∀ j, mem1 t j = mem t j :=
            walkCreate_mem_outside alloc vaddr ls _ _ _ _ _ _ _ _ heq hal t hnt
          have hval : rmem t (levelIndex vaddr l) = mem t (levelIndex vaddr l) := by
            rw [hagt, houter]
          simp only [walkRead, hval, hpres, if_true]
          apply ih _ _ _ _ _ _ _ _ _ heq hal (List.nodup_cons.mp hnd).2
          intro x hxm j
          apply hag
          rw [hdrop]
          exact List.mem_cons_of_mem _ hxm
        · cases h
        · cases h
    · rename_i hnpres
      split at h
      · cases h
      · split at h
        · rename_i f a2 heqalloc xw mem2 a3 t2 path2 fresh2 heq
          cases h
          have half : f &&& FRAME_MASK = f := hal f (List.mem_cons_self f _)
          have hal' : ∀ u ∈ fresh2, u &&& FRAME_MASK = u :=
            fun u hu => hal u (List.mem_cons_of_mem _ hu)
          have hhead := (walkCreate_shape alloc vaddr ls _ _ _ _ _ _ _ _ heq).1
          have hne : path2 ≠ [] := by
            intro hc
            rw [hc] at hhead
            cases hhead
          have hdrop : (t :: path2).dropLast = t :: path2.dropLast :=
            List.dropLast_cons_of_ne_nil hne
          have hnt : t ∉ path2 := (List.nodup_cons.mp hnd).1
          have hagt : ∀ j, rmem t j = mem1 t j := by
            intro j
            apply hag
            rw [hdrop]
            exact List.mem_cons_self t _
          have houter : ∀ j, mem1 t j =
              ((mem.zeroTable f).write t (levelIndex vaddr l)
                (PageTableEntry.new 7 f)) t j :=
            walkCreate_mem_outside alloc vaddr ls _ _ _ _ _ _ _ _ heq hal' t hnt
          have hpb : presentBit (PageTableEntry.new 7 f) = true :=
            presentBit_new (by decide) half
          have hval : rmem t (levelIndex vaddr l) = PageTableEntry.new 7 f := by
            rw [hagt, houter]
            simp [Mem.write]
          simp only [walkRead, hval, hpb, if_true]
          apply ih _ _ _ _ _ _ _ _ _ heq hal' (List.nodup_cons.mp hnd).2
          intro x hxm j
          apply hag
          rw [hdrop]
          exact List.mem_cons_of_mem _ hxm
        · cases h
        · cases h

/-- When the read-only walk already succeeds and meets no huge-page entry,
the creating walk of `map_page` follows the same path, allocates nothing and
leaves memory untouched. -/
theorem walkRead_walkCreate {A : Type} (alloc : A → Option Nat × A) (a : A)
    (vaddr : Nat) (ls : List Nat) :
    ∀ (mem : Mem) (t t1 : Nat),
      walkRead vaddr ls mem t = some t1 →
      readPathNoHuge vaddr ls mem t = true →
      ∃ path, walkCreate alloc vaddr ls mem a t = .ok mem a t1 path [] := by
  induction ls with
  | nil =>
    intro mem t t1 h hh
    simp only [walkRead] at h
    cases h
    exact ⟨[t], rfl⟩
  | cons l ls ih =>
    intro mem t t1 h hh
    simp only [walkRead] at h
    simp only [readPathNoHuge] at hh
    split at h
    · rename_i hpres
      rw [if_pos hpres] at hh
      simp only [Bool.and_eq_true] at hh
      rcases hh with ⟨hnh, hrest⟩
      rcases ih _ _ _ h hrest with ⟨path2, hpc⟩
      refine ⟨t :: path2, ?_⟩
      simp only [walkCreate, hpres, if_true]
      rw [if_neg (by simp at hnh; simp [hnh]), hpc]
    · cases h

/-- C2: for every page and every 4096-aligned frame lying inside the entry's
frame bit-field, in any page-table state where the creating walk for the page
succeeds (meets no huge-page leaf), where the visited tables are pairwise
distinct and freshly allocated tables are in-field: after a successful
`map_page(page, f, flags)` with flags including PRESENT, `translate_page`
returns exactly `f`; a subsequent `unmap_page` returns `f` and afterwards
`translate_page` returns `none`. -/
theorem map_translate_unmap_roundtrip {A : Type} (alloc : A → Option Nat × A)
    (m : PageMapper) (a : A) (page f flags : Nat)
    {mem1 : Mem} {a1 : A} {t : Nat} {path fresh : List Nat}
    (hwalk : walkCreate alloc page [3, 2, 1] m.mem a m.l4 =
      .ok mem1 a1 t path fresh)
    (hfree : presentBit (mem1 t (levelIndex page 0)) = false)
    (hnd : path.Nodup)
    (hal : ∀ u ∈ fresh, u &&& FRAME_MASK = u)
    (hf : f &&& FRAME_MASK = f)
    (hfl : flags &&& 1 = 1) :
    ∃ m1 a2, PageMapper.map_page alloc m a page f flags = (.ok, m1, a2) ∧
      m1.translate_page page = some f ∧
      ∃ m2, m1.unmap_page page = (some f, m2) ∧
        m2.translate_page page = none := by
  have hlast := (walkCreate_shape alloc page [3, 2, 1] _ _ _ _ _ _ _ _ hwalk).2
  have hnotin := getLast_not_mem_dropLast hnd hlast
  have hxt : ∀ x ∈ path.dropLast, x ≠ t := fun x hx hc => hnotin (hc ▸ hx)
  have hag1 : ∀ x ∈ path.dropLast, ∀ j,
      (mem1.write t (levelIndex page 0) (PageTableEntry.new flags f)) x j =
        mem1 x j := by
    intro x hx j
    simp [Mem.write, hxt x hx]
  have hag2 : ∀ x ∈ path.dropLast, ∀ j,
      ((mem1.write t (levelIndex page 0) (PageTableEntry.new flags f)).write t
        (levelIndex page 0) f) x j = mem1 x j := by
    intro x hx j
    simp [Mem.write, hxt x hx]
  have hread1 := walkCreate_walkRead alloc page [3, 2, 1] _ _ _ _ _ _ _ _
    (mem1.write t (levelIndex page 0) (PageTableEntry.new flags f))
    hwalk hal hnd hag1
  have hread2 := walkCreate_walkRead alloc page [3, 2, 1] _ _ _ _ _ _ _ _
    ((mem1.write t (levelIndex page 0) (PageTableEntry.new flags f)).write t
      (levelIndex page 0) f)
    hwalk hal hnd hag2
  have hW1 : (mem1.write t (levelIndex page 0) (PageTableEntry.new flags f)) t
      (levelIndex page 0) = PageTableEntry.new flags f := by
    simp [Mem.write]
  have hW2 : ((mem1.write t (levelIndex page 0)
      (PageTableEntry.new flags f)).write t (levelIndex page 0) f) t
      (levelIndex page 0) = f := by
    simp [Mem.write]
  have hpb : presentBit (PageTableEntry.new flags f) = true :=
    presentBit_new hfl hf
  have hfr : PageTableEntry.frame (PageTableEntry.new flags f) = f :=
    frame_new hf
  have hpf : presentBit f = false := by
    rw [← hf]
    exact presentBit_frame f
  refine ⟨⟨mem1.write t (levelIndex page 0) (PageTableEntry.new flags f),
    m.l4⟩, a1, ?_, ?_, ?_⟩
  · simp only [PageMapper.map_page, hwalk, hfree]
    simp
  · simp only [PageMapper.translate_page, PageMapper.get_entry]
    rw [hread1]
    simp [hW1, hpb, hfr]
  · refine ⟨⟨(mem1.write t (levelIndex page 0)
      (PageTableEntry.new flags f)).write t (levelIndex page 0) f, m.l4⟩,
      ?_, ?_⟩
    · simp only [PageMapper.unmap_page, PageMapper.get_entry]
      rw [hread1]
      simp [hW1, hpb, hfr, new_zero_flags]
    · simp only [PageMapper.translate_page, PageMapper.get_entry]
      rw [hread2]
      simp [hW2, hpf]

/-- Witness for C2: a concrete run through an initially empty level-4 table,
allocating all three intermediate tables from a list allocator. -/
theorem map_translate_unmap_roundtrip_witness :
    ∃ m1 a2, PageMapper.map_page listAlloc ⟨fun _ _ => 0, 0x1000⟩
        [0x2000, 0x3000, 0x4000] 0 0x7000 3 = (.ok, m1, a2) ∧
      m1.translate_page 0 = some 0x7000 ∧
      ∃ m2, m1.unmap_page 0 = (some 0x7000, m2) ∧
        m2.translate_page 0 = none :=
  map_translate_unmap_roundtrip listAlloc ⟨fun _ _ => 0, 0x1000⟩
    [0x2000, 0x3000, 0x4000] 0 0x7000 3 rfl (by decide) (by decide)
    (by decide) (by decide) (by decide)

/-- C4: for a page whose read-only walk succeeds with no huge-page entry and
whose final-level entry has the present bit set, `map_page` returns
`PageAlreadyMapped`, leaves the whole state (hence the prior mapping)
unchanged, and `translate_page` still returns the previously mapped frame. -/
theorem map_already_mapped_unchanged {A : Type} (alloc : A → Option Nat × A)
    (m : PageMapper) (a : A) (page f flags t : Nat)
    (hread : walkRead page [3, 2, 1] m.mem m.l4 = some t)
    (hnh : readPathNoHuge page [3, 2, 1] m.mem m.l4 = true)
    (hpres : presentBit (m.mem t (levelIndex page 0)) = true) :
    PageMapper.map_page alloc m a page f flags = (.errAlreadyMapped, m, a) ∧
      m.translate_page page =
        some (PageTableEntry.frame (m.mem t (levelIndex page 0))) := by
  rcases walkRead_walkCreate alloc a page [3, 2, 1] _ _ _ hread hnh with
    ⟨path, hpc⟩
  constructor
  · simp only [PageMapper.map_page, hpc, hpres]
    simp
  · simp only [PageMapper.translate_page, PageMapper.get_entry]
    rw [hread]
    simp [hpres]

/-- A concrete four-level state with one page mapped: the walk for virtual
address 0 goes through tables 0x1000, 0x2000, 0x3000, 0x4000, whose final
slot maps frame 0x8000 with flags PRESENT|WRITABLE. -/
def c4Mem : Mem := fun t i =>
  if t = 0x1000 ∧ i = 0 then PageTableEntry.new 7 0x2000
  else if t = 0x2000 ∧ i = 0 then PageTableEntry.new 7 0x3000
  else if t = 0x3000 ∧ i = 0 then PageTableEntry.new 7 0x4000
  else if t = 0x4000 ∧ i = 0 then PageTableEntry.new 3 0x8000
  else 0

/-- Witness for C4: remapping virtual address 0 in the state `c4Mem` fails
with `PageAlreadyMapped` and the old translation survives. -/
theorem map_already_mapped_unchanged_witness :
    PageMapper.map_page listAlloc ⟨c4Mem, 0x1000⟩ [] 0 0x9000 3 =
        (.errAlreadyMapped, ⟨c4Mem, 0x1000⟩, []) ∧
      PageMapper.translate_page ⟨c4Mem, 0x1000⟩ 0 = some 0x8000 := by
  have h := map_already_mapped_unchanged listAlloc ⟨c4Mem, 0x1000⟩ [] 0 0x9000
    3 0x4000 (by decide) (by decide) (by decide)
  exact ⟨h.1, h.2.trans (by decide)⟩

/-- C5 (amended): `unmap_page` on a mapped page clears the present (and all
other flag) bits but retains the frame-address bits in the now-non-present
final entry; the written entry is exactly the old entry's frame field. -/
theorem unmap_present_clear_frame_kept (m : PageMapper) (page f : Nat)
    (h : (m.unmap_page page).1 = some f) :
    ∃ t, walkRead page [3, 2, 1] m.mem m.l4 = some t ∧
      presentBit (m.mem t (levelIndex page 0)) = true ∧
      f = PageTableEntry.frame (m.mem t (levelIndex page 0)) ∧
      (m.unmap_page page).2.mem t (levelIndex page 0) = f ∧
      presentBit f = false := by
  cases hge : m.get_entry page with
  | none =>
    rw [PageMapper.unmap_page, hge] at h
    simp at h
  | some ti =>
    obtain ⟨t, i⟩ := ti
    have hge' := hge
    simp only [PageMapper.get_entry, Option.map_eq_some'] at hge'
    rcases hge' with ⟨t0, hwr, hti⟩
    have ht0 : t0 = t := congrArg Prod.fst hti
    have hi : i = levelIndex page 0 := (congrArg Prod.snd hti).symm
    rw [ht0] at hwr
    subst hi
    by_cases hpres : presentBit (m.mem t (levelIndex page 0)) = true
    · simp only [PageMapper.unmap_page, hge, if_pos hpres] at h
      simp only [Option.some.injEq] at h
      refine ⟨t, hwr, hpres, h.symm, ?_, ?_⟩
      · simp only [PageMapper.unmap_page, hge, if_pos hpres]
        simp [Mem.write, new_zero_flags, h]
      · rw [← h]
        exact presentBit_frame _
    · simp [PageMapper.unmap_page, hge, hpres] at h

/-- Witness for C5 (amended): unmapping virtual address 0 in the state
`c4Mem` returns frame 0x8000 and leaves the raw value 0x8000 (present bit
clear, frame bits kept) in the final slot. -/
theorem unmap_present_clear_frame_kept_witness :
    ∃ t, walkRead 0 [3, 2, 1] c4Mem 0x1000 = some t ∧
      presentBit (c4Mem t (levelIndex 0 0)) = true ∧
      0x8000 = PageTableEntry.frame (c4Mem t (levelIndex 0 0)) ∧
      (PageMapper.unmap_page ⟨c4Mem, 0x1000⟩ 0).2.mem t (levelIndex 0 0) =
        0x8000 ∧
      presentBit 0x8000 = false :=
  unmap_present_clear_frame_kept ⟨c4Mem, 0x1000⟩ 0 0x8000 rfl

/-- C5 counterexample: in a state reached from an all-zero level-4 table by
one `map_page` (of frame 0x7000) followed by one `unmap_page`, the final
entry is not present yet its non-flag bits (the frame bits 0x7000) are
nonzero, refuting the claimed invariant. -/
theorem unmap_nonflag_invariant_cex :
    presentBit ((PageMapper.unmap_page
        ((PageMapper.map_page listAlloc ⟨fun _ _ => 0, 0x1000⟩
          [0x2000, 0x3000, 0x4000] 0 0x7000 3).2.1) 0).2.mem 0x4000 0) =
        false ∧
      ((PageMapper.unmap_page
        ((PageMapper.map_page listAlloc ⟨fun _ _ => 0, 0x1000⟩
          [0x2000, 0x3000, 0x4000] 0 0x7000 3).2.1) 0).2.mem 0x4000 0) &&&
        NON_FLAG_MASK ≠ 0 := by
  decide

/-! Virtual region allocators, from `src/kernel/src/vmm.rs` and the `Step`
instance for `Page` in `src/kernel/src/types.rs`.  Page positions are
byte addresses of page starts, as in the source. -/

/-- `count.checked_mul(4096)` on a 64-bit usize. -/
def checkedMul4096 (count : Nat) : Option Nat :=
  if count * 4096 < 2 ^ 64 then some (count * 4096) else none

/-- `usize::checked_add` on 64-bit values. -/
def checkedAdd (a b : Nat) : Option Nat :=
  if a + b < 2 ^ 64 then some (a + b) else none

/-- `<Page as Step>::forward_checked(start, count)`:
`count.checked_mul(4096).and_then(|offset| start.addr().checked_add(offset))`. -/
def Page.forward_checked (start count : Nat) : Option Nat :=
  (checkedMul4096 count).bind (checkedAdd start)

/-- `BumpAllocator`: the `full` window and the `Cell<Page>` cursor. -/
structure BumpAllocator where
  fullStart : Nat
  fullEnd : Nat
  pos : Nat

/-- `BumpAllocator::allocate_region(pages)`: read the cursor, step it forward
by `pages` pages; fail (cursor untouched) on arithmetic overflow or when the
end exceeds the window bound, else advance the cursor and return the range. -/
def BumpAllocator.allocate_region (b : BumpAllocator) (pages : Nat) :
    Option (Nat × Nat) × BumpAllocator :=
  let start := b.pos
  match Page.forward_checked start pages with
  | none => (none, b)
  | some e =>
    if b.fullEnd < e then (none, b)
    else (some (start, e), ⟨b.fullStart, b.fullEnd, e⟩)

/-- `SyncBumpAllocator`: same window, `Atomic<Page>` cursor. -/
structure SyncBumpAllocator where
  fullStart : Nat
  fullEnd : Nat
  pos : Nat

/-- The compare-exchange retry loop of `SyncBumpAllocator::allocate_region`,
executed sequentially: `start` is the last observed cursor value; the
compare-exchange succeeds exactly when the cursor still equals `start`,
otherwise the loop retries with the newly observed value.  (A spurious
`compare_exchange_weak` failure re-runs an identical iteration, so it is not
modelled.) -/
def SyncBumpAllocator.casLoop (b : SyncBumpAllocator) (pages start : Nat) :
    Option (Nat × Nat) × SyncBumpAllocator :=
  match Page.forward_checked start pages with
  | none => (none, b)
  | some e =>
    if b.fullEnd < e then (none, b)
    else if b.pos = start then (some (start, e), ⟨b.fullStart, b.fullEnd, e⟩)
    else b.casLoop pages b.pos
termination_by (if b.pos = start then 0 else 1)
decreasing_by simp_all

/-- `SyncBumpAllocator::allocate_region(pages)`: load the cursor, then run
the compare-exchange loop. -/
def SyncBumpAllocator.allocate_region (b : SyncBumpAllocator) (pages : Nat) :
    Option (Nat × Nat) × SyncBumpAllocator :=
  b.casLoop pages b.pos

/-- Repeated `allocate_region(n)` on the plain-cell bump allocator, keeping
the successfully returned ranges; a failed call ends the run. -/
def runBump (n : Nat) : Nat → BumpAllocator → List (Nat × Nat) × BumpAllocator
  | 0, b => ([], b)
  | k + 1, b =>
    match b.allocate_region n with
    | (some r, b1) =>
      let pr := runBump n k b1
      (r :: pr.1, pr.2)
    | (none, b1) => ([], b1)

/-- `Page::forward_checked` computes `start + count * 4096`, failing exactly
when that value does not fit in 64 bits. -/
theorem forward_checked_eq (s n : Nat) :
    Page.forward_checked s n =
      if s + n * 4096 < 2 ^ 64 then some (s + n * 4096) else none := by
  rw [Page.forward_checked, checkedMul4096]
  rcases Nat.lt_or_ge (n * 4096) (2 ^ 64) with hm | hm
  · rw [if_pos hm]
    show checkedAdd s (n * 4096) = _
    rw [checkedAdd]
  · rw [if_neg (by omega : ¬ n * 4096 < 2 ^ 64)]
    show (none : Option Nat) = _
    rw [if_neg (by omega : ¬ s + n * 4096 < 2 ^ 64)]

/-- Closed-form characterisation of one `BumpAllocator::allocate_region`
call: it computes `pos + n * 4096` and fails exactly on 64-bit overflow or
when that end exceeds the window bound. -/
theorem allocate_region_eq (b : BumpAllocator) (n : Nat) :
    b.allocate_region n =
      if 2 ^ 64 ≤ b.pos + n * 4096 then (none, b)
      else if b.fullEnd < b.pos + n * 4096 then (none, b)
      else (some (b.pos, b.pos + n * 4096),
        ⟨b.fullStart, b.fullEnd, b.pos + n * 4096⟩) := by
  simp only [BumpAllocator.allocate_region, forward_checked_eq]
  rcases Nat.lt_or_ge (b.pos + n * 4096) (2 ^ 64) with hlt | hge
  · rw [if_pos hlt, if_neg (by omega : ¬ 2 ^ 64 ≤ b.pos + n * 4096)]
  · rw [if_neg (by omega : ¬ b.pos + n * 4096 < 2 ^ 64),
      if_pos (by omega : 2 ^ 64 ≤ b.pos + n * 4096)]

/-- Induction core for repeated bump allocation: the collected ranges have
the closed form `[pos + j*n*4096, pos + (j+1)*n*4096)`, the cursor lands at
the end of the last range, the window is untouched, and an early stop means
the next call fails with the cursor unchanged. -/
theorem runBump_spec (n : Nat) :
    ∀ (k : Nat) (b : BumpAllocator),
      (∀ j, j < (runBump n k b).1.length →
        (runBump n k b).1[j]? =
          some (b.pos + j * (n * 4096), b.pos + (j + 1) * (n * 4096))) ∧
      (runBump n k b).2.pos = b.pos + (runBump n k b).1.length * (n * 4096) ∧
      (runBump n k b).2.fullStart = b.fullStart ∧
      (runBump n k b).2.fullEnd = b.fullEnd ∧
      (runBump n k b).1.length ≤ k ∧
      ((runBump n k b).1.length < k →
        (runBump n k b).2.allocate_region n = (none, (runBump n k b).2)) := by
  intro k
  induction k with
  | zero =>
    intro b
    refine ⟨?_, by simp [runBump], rfl, rfl, Nat.le_refl 0, ?_⟩
    · intro j hj
      simp [runBump] at hj
    · intro h
      simp [runBump] at h
  | succ k ih =>
    intro b
    rcases hc : b.allocate_region n with ⟨ro, b1⟩
    rw [allocate_region_eq] at hc
    split_ifs at hc with h1 h2
    · cases hc
      have hrun : runBump n (k + 1) b = ([], b) := by
        rw [runBump, allocate_region_eq, if_pos h1]
      rw [hrun]
      refine ⟨?_, by simp, rfl, rfl, by simp, ?_⟩
      · intro j hj
        simp at hj
      · intro h
        rw [allocate_region_eq, if_pos h1]
    · cases hc
      have hrun : runBump n (k + 1) b = ([], b) := by
        rw [runBump, allocate_region_eq, if_neg h1, if_pos h2]
      rw [hrun]
      refine ⟨?_, by simp, rfl, rfl, by simp, ?_⟩
      · intro j hj
        simp at hj
      · intro h
        rw [allocate_region_eq, if_neg h1, if_pos h2]
    · cases hc
      have hrun : runBump n (k + 1) b =
          ((b.pos, b.pos + n * 4096) ::
            (runBump n k ⟨b.fullStart, b.fullEnd, b.pos + n * 4096⟩).1,
          (runBump n k ⟨b.fullStart, b.fullEnd, b.pos + n * 4096⟩).2) := by
        rw [runBump, allocate_region_eq]
        rw [if_neg h1, if_neg h2]
      rcases ih ⟨b.fullStart, b.fullEnd, b.pos + n * 4096⟩ with
        ⟨ihget, ihpos, ihfs, ihfe, ihlen, ihfail⟩
      rw [hrun]
      refine ⟨?_, ?_, ihfs, ihfe, ?_, ?_⟩
      · intro j hj
        cases j with
        | zero => simp
        | succ j =>
          simp only [List.length_cons] at hj
          have hj' := Nat.lt_of_succ_lt_succ hj
          have hg := ihget j hj'
          simp only [List.getElem?_cons_succ]
          rw [hg]
          simp only [Option.some.injEq, Prod.mk.injEq]
          constructor <;> ring
      · simp only [List.length_cons]
        rw [ihpos]
        simp only []
        ring
      · simp only [List.length_cons]
        exact Nat.succ_le_succ ihlen
      · intro hlt
        simp only [List.length_cons] at hlt
        exact ihfail (Nat.lt_of_succ_lt_succ hlt)

/-- C3: one `allocate_region(n)` call computes `e = pos + n*4096`, fails with
the cursor unchanged when `e` overflows 64 bits or exceeds the window bound,
and otherwise advances the cursor to `e` returning `[pos, e)`; consequently
repeated calls return the arithmetic progression of `n`-page ranges — each
range closed-form, strictly increasing and pairwise non-overlapping — until
the first failing request, which leaves the cursor unchanged. -/
theorem bump_allocate_region_spec (b : BumpAllocator) (n : Nat) (hn : 0 < n) :
    (2 ^ 64 ≤ b.pos + n * 4096 ∨ b.fullEnd < b.pos + n * 4096 →
      b.allocate_region n = (none, b)) ∧
    (b.pos + n * 4096 < 2 ^ 64 → b.pos + n * 4096 ≤ b.fullEnd →
      b.allocate_region n = (some (b.pos, b.pos + n * 4096),
        ⟨b.fullStart, b.fullEnd, b.pos + n * 4096⟩)) ∧
    ∀ k,
      (∀ j, j < (runBump n k b).1.length →
        (runBump n k b).1[j]? =
          some (b.pos + j * (n * 4096), b.pos + (j + 1) * (n * 4096))) ∧
      (runBump n k b).2.pos = b.pos + (runBump n k b).1.length * (n * 4096) ∧
      (runBump n k b).2.fullStart = b.fullStart ∧
      (runBump n k b).2.fullEnd = b.fullEnd ∧
      ((runBump n k b).1.length < k →
        (runBump n k b).2.allocate_region n = (none, (runBump n k b).2)) ∧
      (∀ (i j : Nat) (ri rj : Nat × Nat), i < j →
        (runBump n k b).1[i]? = some ri → (runBump n k b).1[j]? = some rj →
        ri.2 ≤ rj.1 ∧ ri.1 < rj.1) := by
  refine ⟨?_, ?_, ?_⟩
  · intro h
    rw [allocate_region_eq]
    rcases h with h | h
    · rw [if_pos h]
    · rcases Nat.lt_or_ge (b.pos + n * 4096) (2 ^ 64) with hlt | hge
      · rw [if_neg (by omega), if_pos h]
      · rw [if_pos (by omega)]
  · intro h1 h2
    rw [allocate_region_eq, if_neg (by omega), if_neg (by omega)]
  · intro k
    rcases runBump_spec n k b with ⟨hget, hpos, hfs, hfe, _hlen, hfail⟩
    refine ⟨hget, hpos, hfs, hfe, hfail, ?_⟩
    intro i j ri rj hij hgi hgj
    have hjlen : j < (runBump n k b).1.length :=
      (List.getElem?_eq_some_iff.mp hgj).1
    have hilen : i < (runBump n k b).1.length := Nat.lt_trans hij hjlen
    have hri : ri = (b.pos + i * (n * 4096), b.pos + (i + 1) * (n * 4096)) :=
      Option.some_injective _ ((hget i hilen).symm.trans hgi).symm
    have hrj : rj = (b.pos + j * (n * 4096), b.pos + (j + 1) * (n * 4096)) :=
      Option.some_injective _ ((hget j hjlen).symm.trans hgj).symm
    have hc : 0 < n * 4096 := Nat.mul_pos hn (by norm_num)
    subst hri
    subst hrj
    constructor
    · have : (i + 1) * (n * 4096) ≤ j * (n * 4096) :=
        Nat.mul_le_mul_right _ hij
      simpa using Nat.add_le_add_left this b.pos
    · have : i * (n * 4096) < j * (n * 4096) :=
        Nat.mul_lt_mul_of_lt_of_le hij (Nat.le_refl _) hc
      simpa using Nat.add_lt_add_left this b.pos

/-- Witness for C3: a single allocation in a three-page window starting with
the cursor one page in. -/
theorem bump_allocate_region_spec_witness :
    BumpAllocator.allocate_region ⟨0, 12288, 4096⟩ 1 =
      (some (4096, 8192), ⟨0, 12288, 8192⟩) :=
  (bump_allocate_region_spec ⟨0, 12288, 4096⟩ 1 (by decide)).2.1 (by decide)
    (by decide)

/-- Sequential characterisation of `SyncBumpAllocator::allocate_region`: with
no interleaved writer the compare-exchange succeeds on the first iteration,
so the call follows the same overflow/bound checks as the plain variant. -/
theorem sync_allocate_region_eq (s : SyncBumpAllocator) (n : Nat) :
    s.allocate_region n =
      if 2 ^ 64 ≤ s.pos + n * 4096 then (none, s)
      else if s.fullEnd < s.pos + n * 4096 then (none, s)
      else (some (s.pos, s.pos + n * 4096),
        ⟨s.fullStart, s.fullEnd, s.pos + n * 4096⟩) := by
  rw [SyncBumpAllocator.allocate_region, SyncBumpAllocator.casLoop,
    forward_checked_eq]
  rcases Nat.lt_or_ge (s.pos + n * 4096) (2 ^ 64) with hlt | hge
  · have hlt' : s.pos + n * 4096 < 18446744073709551616 := by omega
    have h1 : ¬ 18446744073709551616 ≤ s.pos + n * 4096 := by omega
    rcases Nat.lt_or_ge s.fullEnd (s.pos + n * 4096) with hb | hb
    · simp [hlt', h1, hb]
    · have h2 : ¬ s.fullEnd < s.pos + n * 4096 := by omega
      simp [hlt', h1, h2]
  · have h1 : ¬ (s.pos + n * 4096 < 18446744073709551616) := by omega
    simp [h1, (by omega : 18446744073709551616 ≤ s.pos + n * 4096)]

/-- Run a sequence of `allocate_region` requests on the plain-cell bump
allocator, collecting every result (failures included). -/
def runBumpList : List Nat → BumpAllocator →
    List (Option (Nat × Nat)) × BumpAllocator
  | [], b => ([], b)
  | n :: ns, b =>
    let st := b.allocate_region n
    let pr := runBumpList ns st.2
    (st.1 :: pr.1, pr.2)

/-- Run a sequence of `allocate_region` requests on the atomic
compare-exchange bump allocator, collecting every result. -/
def runSyncList : List Nat → SyncBumpAllocator →
    List (Option (Nat × Nat)) × SyncBumpAllocator
  | [], s => ([], s)
  | n :: ns, s =>
    let st := s.allocate_region n
    let pr := runSyncList ns st.2
    (st.1 :: pr.1, pr.2)

/-- C9: the plain-cell and the atomic compare-exchange bump allocators
implement the identical allocation policy: starting from the same window and
cursor, any sequence of sequential `allocate_region` requests produces the
same results (ranges and failures) and the same final cursor. -/
theorem bump_sync_equiv (reqs : List Nat) (fs fe p : Nat) :
    (runBumpList reqs ⟨fs, fe, p⟩).1 = (runSyncList reqs ⟨fs, fe, p⟩).1 ∧
    (runBumpList reqs ⟨fs, fe, p⟩).2.fullStart =
      (runSyncList reqs ⟨fs, fe, p⟩).2.fullStart ∧
    (runBumpList reqs ⟨fs, fe, p⟩).2.fullEnd =
      (runSyncList reqs ⟨fs, fe, p⟩).2.fullEnd ∧
    (runBumpList reqs ⟨fs, fe, p⟩).2.pos =
      (runSyncList reqs ⟨fs, fe, p⟩).2.pos := by
  induction reqs generalizing p with
  | nil => exact ⟨rfl, rfl, rfl, rfl⟩
  | cons n ns ih =>
    simp only [runBumpList, runSyncList, allocate_region_eq,
      sync_allocate_region_eq]
    split_ifs with h1 h2
    · simpa using ih p
    · simpa using ih p
    · simpa using ih (p + n * 4096)

/-! Physical frame allocator, from `src/kernel/src/pmm.rs` and the direct
map from `src/kernel/src/hhdm.rs`.  Modelled after lazy initialisation (the
state behind the spinlock once `GlobalInner::with_limine` has run). -/

/-- `Hhdm::to_virtual`: `phys + base` as a 64-bit (wrapping) sum. -/
def Hhdm.toVirtual (base p : Nat) : Nat := (p + base) % 2 ^ 64

/-- `Hhdm::to_physical`: `addr - base` as 64-bit wrapping subtraction. -/
def Hhdm.toPhysical (base v : Nat) : Nat := (v + 2 ^ 64 - base) % 2 ^ 64

/-- One firmware memory-map entry: base, length and whether its type is
`MemoryMapEntryType::Usable`. -/
structure MemmapEntry where
  base : Nat
  len : Nat
  usable : Bool
deriving DecidableEq, Repr

/-- `GlobalInner`: the direct-map offset, the freelist head (a direct-map
virtual address, `Option<HigherHalf<Node>>`), the `next` field stored in
memory at each direct-map address (the intrusive `Node`), the current
region cursor `current: Range<u64>`, and the remaining memory-map entries. -/
structure GlobalInner where
  hhdmBase : Nat
  free : Option Nat
  nodeMem : Nat → Option Nat
  curStart : Nat
  curEnd : Nat
  entries : List MemmapEntry

/-- `GlobalInner::freelist_push(frame)`: write the old head into the frame's
`next` field through its direct-map alias and make it the new head. -/
def GlobalInner.freelist_push (g : GlobalInner) (frame : Nat) : GlobalInner :=
  let ptr := Hhdm.toVirtual g.hhdmBase frame
  { g with
    nodeMem := fun v => if v = ptr then g.free else g.nodeMem v
    free := some ptr }

/-- `GlobalInner::freelist_pop()`: take the head, follow its `next` link,
and return the head's physical address. -/
def GlobalInner.freelist_pop (g : GlobalInner) : Option Nat × GlobalInner :=
  match g.free with
  | none => (none, g)
  | some head =>
    (some (Hhdm.toPhysical g.hhdmBase head), { g with free := g.nodeMem head })

/-- The `while` loop body of `GlobalInner::memmap_pop`, recursing
structurally over the remaining iterator entries with the current region
bounds: while fewer than 4096 bytes remain in the current region, advance to
the next entry (failing when none remain), skipping entries that are not
usable; then carve 4096 bytes off the front of the current region.  Returns
the popped frame together with the new cursor bounds and remaining
entries. -/
def memmapGo : List MemmapEntry → Nat → Nat →
    Option Nat × (Nat × Nat × List MemmapEntry)
  | es, cs, ce =>
    if 4096 ≤ ce - cs then (some cs, (cs + 4096, ce, es))
    else
      match es with
      | [] => (none, (cs, ce, []))
      | e :: rest =>
        if e.usable then memmapGo rest e.base (e.base + e.len)
        else memmapGo rest cs ce

/-- `GlobalInner::memmap_pop()`. -/
def GlobalInner.memmap_pop (g : GlobalInner) : Option Nat × GlobalInner :=
  match memmapGo g.entries g.curStart g.curEnd with
  | (r, (cs, ce, es)) =>
    (r, { g with curStart := cs, curEnd := ce, entries := es })

/-- `Global::allocate_frame` after initialisation: pop the freelist if
non-empty, else carve from the memory map. -/
def GlobalInner.allocate_frame (g : GlobalInner) : Option Nat × GlobalInner :=
  match g.freelist_pop with
  | (some f, g1) => (some f, g1)
  | (none, g1) => g1.memmap_pop

/-- `Global::deallocate_frame` after initialisation. -/
def GlobalInner.deallocate_frame (g : GlobalInner) (frame : Nat) :
    GlobalInner :=
  g.freelist_push frame

/-- Round trip through the direct map: physical to virtual and back. -/
theorem hhdm_roundtrip {base p : Nat} (hb : base < 2 ^ 64) (hp : p < 2 ^ 64) :
    Hhdm.toPhysical base (Hhdm.toVirtual base p) = p := by
  rw [Hhdm.toVirtual, Hhdm.toPhysical]
  rcases Nat.lt_or_ge (p + base) (2 ^ 64) with h | h
  · rw [Nat.mod_eq_of_lt h]
    have he : p + base + 2 ^ 64 - base = p + 2 ^ 64 := by omega
    rw [he, Nat.add_mod_right]
    exact Nat.mod_eq_of_lt hp
  · have h1 : (p + base) % 2 ^ 64 = p + base - 2 ^ 64 := by
      rw [Nat.mod_eq_sub_mod h]
      exact Nat.mod_eq_of_lt (by omega)
    rw [h1]
    have h2 : p + base - 2 ^ 64 + 2 ^ 64 - base = p := by omega
    rw [h2]
    exact Nat.mod_eq_of_lt hp

/-- Injectivity of the direct map on 64-bit physical addresses. -/
theorem toVirtual_inj {base p q : Nat} (hp : p < 2 ^ 64) (hq : q < 2 ^ 64)
    (h : Hhdm.toVirtual base p = Hhdm.toVirtual base q) : p = q := by
  rw [Hhdm.toVirtual, Hhdm.toVirtual] at h
  omega

/-- C6: the frame freelist is LIFO: after `deallocate_frame(A)` then
`deallocate_frame(B)` (distinct 64-bit frame addresses), the next two
`allocate_frame()` calls return B then A. -/
theorem freelist_lifo (g : GlobalInner) (A B : Nat)
    (hbase : g.hhdmBase < 2 ^ 64) (hA : A < 2 ^ 64) (hB : B < 2 ^ 64)
    (hAB : A ≠ B) :
    (((g.deallocate_frame A).deallocate_frame B).allocate_frame).1 =
      some B ∧
    (GlobalInner.allocate_frame
      ((((g.deallocate_frame A).deallocate_frame B).allocate_frame).2)).1 =
      some A := by
  have hvAB : Hhdm.toVirtual g.hhdmBase B ≠ Hhdm.toVirtual g.hhdmBase A :=
    fun hc => hAB (toVirtual_inj hA hB hc.symm)
  constructor
  · simp [GlobalInner.deallocate_frame, GlobalInner.freelist_push,
      GlobalInner.allocate_frame, GlobalInner.freelist_pop,
      hhdm_roundtrip hbase hB]
  · simp [GlobalInner.deallocate_frame, GlobalInner.freelist_push,
      GlobalInner.allocate_frame, GlobalInner.freelist_pop,
      hhdm_roundtrip hbase hA, hvAB]

/-- Witness for C6 at a concrete freelist state. -/
theorem freelist_lifo_witness :
    (((GlobalInner.deallocate_frame
        ⟨65536, none, fun _ => none, 0, 0, []⟩ 4096).deallocate_frame
        8192).allocate_frame).1 = some 8192 ∧
    (GlobalInner.allocate_frame
      ((((GlobalInner.deallocate_frame
        ⟨65536, none, fun _ => none, 0, 0, []⟩ 4096).deallocate_frame
        8192).allocate_frame).2)).1 = some 4096 :=
  freelist_lifo ⟨65536, none, fun _ => none, 0, 0, []⟩ 4096 8192 (by decide)
    (by decide) (by decide) (by decide)

/-- Existence of a carvable frame in the memory map: at least 4096 bytes
remain in the current region, or some remaining entry is usable with at
least 4096 bytes. -/
def hasUsableFrame (g : GlobalInner) : Prop :=
  4096 ≤ g.curEnd - g.curStart ∨
    ∃ e ∈ g.entries, e.usable = true ∧ 4096 ≤ e.len

/-- The physical address `memmap_pop` will return: the current cursor if the
current region still holds 4096 bytes, else the base of the first usable
remaining entry of length at least 4096. -/
def firstCarve (g : GlobalInner) : Option Nat :=
  if 4096 ≤ g.curEnd - g.curStart then some g.curStart
  else (g.entries.find? (fun e => e.usable && decide (4096 ≤ e.len))).map
    (fun e => e.base)

/-- The loop returns exactly the first carvable address: the cursor if 4096
bytes remain, else the base of the first usable entry of length at least
4096. -/
theorem memmapGo_first (es : List MemmapEntry) :
    ∀ cs ce, (memmapGo es cs ce).1 =
      (if 4096 ≤ ce - cs then some cs
       else (es.find? (fun e => e.usable && decide (4096 ≤ e.len))).map
         (fun e => e.base)) := by
  induction es with
  | nil =>
    intro cs ce
    rw [memmapGo]
    split_ifs with h
    · rfl
    · rfl
  | cons e rest ih =>
    intro cs ce
    rw [memmapGo]
    split_ifs with h hu
    · rfl
    · rw [ih]
      rcases Nat.lt_or_ge e.len 4096 with hlen | hlen
      · rw [if_neg (by omega), List.find?_cons_of_neg]
        simp [hu]
        omega
      · rw [if_pos (by omega), List.find?_cons_of_pos]
        · simp
        · simp [hu]
          omega
    · rw [ih, if_neg h, List.find?_cons_of_neg]
      simp [hu]

/-- `memmap_pop` returns exactly the frame predicted by `firstCarve`. -/
theorem memmap_pop_firstCarve (g : GlobalInner) :
    (g.memmap_pop).1 = firstCarve g := by
  have h := memmapGo_first g.entries g.curStart g.curEnd
  rw [GlobalInner.memmap_pop]
  rcases hgo : memmapGo g.entries g.curStart g.curEnd with ⟨r, cs, ce, es⟩
  rw [hgo] at h
  rw [firstCarve]
  exact h

/-- `firstCarve` fails exactly when no usable region with at least 4096
remaining bytes exists. -/
theorem firstCarve_none_iff (g : GlobalInner) :
    firstCarve g = none ↔ ¬ hasUsableFrame g := by
  rw [firstCarve, hasUsableFrame]
  split_ifs with h
  · simp [h]
  · simp only [Option.map_eq_none', List.find?_eq_none, h, false_or]
    constructor
    · intro hf hc
      rcases hc with ⟨e, he, hu, hl⟩
      have := hf e he
      simp [hu, hl] at this
    · intro hc e he
      simp only [Bool.and_eq_true, decide_eq_true_eq, not_and]
      intro hu hl
      exact hc ⟨e, he, hu, hl⟩

/-- C7: `allocate_frame` pops the freelist head when the freelist is
non-empty; otherwise it defers to `memmap_pop`, which carves the next 4096
bytes off the current usable region (advancing the cursor by 4096), advances
past exhausted or non-usable regions to the first usable entry with at least
4096 bytes, and fails exactly when no such region remains. -/
theorem frame_allocate_spec (g : GlobalInner) :
    (∀ h, g.free = some h →
      g.allocate_frame = (some (Hhdm.toPhysical g.hhdmBase h),
        { g with free := g.nodeMem h })) ∧
    (g.free = none → g.allocate_frame = g.memmap_pop) ∧
    (g.memmap_pop).1 = firstCarve g ∧
    (4096 ≤ g.curEnd - g.curStart →
      g.memmap_pop =
        (some g.curStart, { g with curStart := g.curStart + 4096 })) ∧
    (firstCarve g = none ↔ ¬ hasUsableFrame g) := by
  refine ⟨?_, ?_, memmap_pop_firstCarve g, ?_, firstCarve_none_iff g⟩
  · intro h hh
    simp [GlobalInner.allocate_frame, GlobalInner.freelist_pop, hh]
  · intro hh
    simp [GlobalInner.allocate_frame, GlobalInner.freelist_pop, hh]
  · intro hrem
    rw [GlobalInner.memmap_pop, memmapGo.eq_def]
    dsimp only
    rw [if_pos hrem]

/-- Witness for C7: an empty-freelist state falls through to the memory map,
and a state with 8192 bytes left in the current region carves its cursor. -/
theorem frame_allocate_spec_witness :
    (GlobalInner.allocate_frame ⟨0, none, fun _ => none, 0, 0, []⟩ =
      GlobalInner.memmap_pop ⟨0, none, fun _ => none, 0, 0, []⟩) ∧
    GlobalInner.memmap_pop ⟨0, none, fun _ => none, 4096, 12288, []⟩ =
      (some 4096, ⟨0, none, fun _ => none, 8192, 12288, []⟩) :=
  ⟨(frame_allocate_spec ⟨0, none, fun _ => none, 0, 0, []⟩).2.1 rfl,
   (frame_allocate_spec ⟨0, none, fun _ => none, 4096, 12288, []⟩).2.2.2.1
     (by decide)⟩

/-! The composed kernel address space, from `src/kernel/src/address_space.rs`.
The operations are generic in the `PhysicalMemoryAllocator` implementation
(an `alloc`/`dealloc` pair over an allocator state), exactly as `map_page`
and the drop guards are generic in the source; the kernel instantiates them
with the global frame allocator `pmm::Global`. -/

/-- Outcome of `KernelAddrSpaceInner::allocate`: the returned pointer, a
propagated `AllocError`, or a panic (a failed `expect`/`assert_eq!`/
`unreachable!`/`todo!`). -/
inductive KAResult where
  | ok (ptr : Nat)
  | errPhys
  | errVirt
  | panic
deriving DecidableEq, Repr

/-- The `DeallocRegion` drop guard of `KernelAddrSpaceInner::allocate`: on
failure every page of the mapped prefix (in order) is unmapped and its frame
deallocated; a failing unmap is the `.expect("failed to unmap page")` panic
(`none`). -/
def rollbackRegion {A : Type} (dealloc : A → Nat → A) :
    PageMapper → A → List Nat → Option (PageMapper × A)
  | m, a, [] => some (m, a)
  | m, a, p :: ps =>
    match m.unmap_page p with
    | (none, _) => none
    | (some f, m1) => rollbackRegion dealloc m1 (dealloc a f) ps

/-- The per-page loop of `KernelAddrSpaceInner::allocate`: allocate a frame,
`map_page` it with PRESENT|WRITABLE (3); on success run the `assert_eq!` on
`translate_page` and extend the guarded region; on a frame-allocation
failure run the rollback; on a `map_page` physical-allocation failure first
drop the `FrameDropGuard` (deallocating the just-obtained frame, which was
never mapped), then run the rollback; `PageAlreadyMapped` is the
`unreachable!` panic. -/
def allocLoop {A : Type} (alloc : A → Option Nat × A) (dealloc : A → Nat → A)
    (start : Nat) :
    List Nat → List Nat → PageMapper → A → KAResult × PageMapper × A
  | _mapped, [], m, a => (.ok start, m, a)
  | mapped, p :: rest, m, a =>
    match alloc a with
    | (none, a1) =>
      match rollbackRegion dealloc m a1 mapped with
      | none => (.panic, m, a1)
      | some (m1, a2) => (.errPhys, m1, a2)
    | (some f, a1) =>
      match PageMapper.map_page alloc m a1 p f 3 with
      | (.ok, m1, a2) =>
        if m1.translate_page p = some f then
          allocLoop alloc dealloc start (mapped ++ [p]) rest m1 a2
        else (.panic, m1, a2)
      | (.errPhysAlloc, m1, a2) =>
        match rollbackRegion dealloc m1 (dealloc a2 f) mapped with
        | none => (.panic, m1, dealloc a2 f)
        | some (m2, a3) => (.errPhys, m2, a3)
      | (.errAlreadyMapped, m1, a2) => (.panic, m1, a2)
      | (.panicHuge, m1, a2) => (.panic, m1, a2)

/-- `KernelAddrSpaceInner::allocate(pages)`: reserve a virtual region, then
map each of its pages in order with a freshly allocated frame, rolling back
on failure; the reserved region itself is never returned.  On success the
returned pointer is the region's first byte. -/
def kernelAllocate {A : Type} (alloc : A → Option Nat × A)
    (dealloc : A → Nat → A) (m : PageMapper) (v : BumpAllocator) (a : A)
    (n : Nat) : KAResult × PageMapper × BumpAllocator × A :=
  match v.allocate_region n with
  | (none, v1) => (.errVirt, m, v1, a)
  | (some (s, _), v1) =>
    match allocLoop alloc dealloc s []
      ((List.range n).map (fun i => s + 4096 * i)) m a with
    | (r, m1, a1) => (r, m1, v1, a1)

/-- Outcome of `KernelAddrSpaceInner::map_frames`. -/
inductive KMResult where
  | ok (ptr : Nat)
  | errPhys
  | errVirt
  | panicInvalidRegion
  | panicAlreadyMapped
  | panicHuge
deriving DecidableEq, Repr

/-- `<Frame as Step>::steps_between`:
`end.checked_sub(start).map(|v| v / 4096).and_then(try_into)`; the final
`u64 -> usize` conversion always succeeds on the 64-bit target. -/
def Frame.steps_between (s e : Nat) : Option Nat :=
  if s ≤ e then some ((e - s) / 4096) else none

/-- `MapOptions` of `address_space.rs`. -/
structure MapOptions where
  user : Bool
  writable : Bool
  disable_cache : Bool
deriving DecidableEq, Repr

/-- The `(page, frame)` mapping loop of `map_frames`: unlike `allocate` it
performs no rollback; `PageAlreadyMapped` is the `panic!` and a
physical-allocation failure is returned as the error. -/
def mapFramesLoop {A : Type} (alloc : A → Option Nat × A)
    (flags ptr : Nat) :
    List (Nat × Nat) → PageMapper → A → KMResult × PageMapper × A
  | [], m, a => (.ok ptr, m, a)
  | (p, f) :: rest, m, a =>
    match PageMapper.map_page alloc m a p f flags with
    | (.ok, m1, a1) => mapFramesLoop alloc flags ptr rest m1 a1
    | (.errAlreadyMapped, m1, a1) => (.panicAlreadyMapped, m1, a1)
    | (.errPhysAlloc, m1, a1) => (.errPhys, m1, a1)
    | (.panicHuge, m1, a1) => (.panicHuge, m1, a1)

/-- `KernelAddrSpaceInner::map_frames(frames, map_options)`: compute the
page count with `Step::steps_between` (panicking via `.expect` on an
inverted range), short-circuit an empty range to `NonNull::dangling()`
(address 1 for `u8`), else reserve a region and map each `(page, frame)`
pair with flags derived from the options. -/
def kernelMapFrames {A : Type} (alloc : A → Option Nat × A) (m : PageMapper)
    (v : BumpAllocator) (a : A) (fstart fend : Nat) (opts : MapOptions) :
    KMResult × PageMapper × BumpAllocator × A :=
  match Frame.steps_between fstart fend with
  | none => (.panicInvalidRegion, m, v, a)
  | some n =>
    if n = 0 then (.ok 1, m, v, a)
    else
      match v.allocate_region n with
      | (none, v1) => (.errVirt, m, v1, a)
      | (some (s, _), v1) =>
        match mapFramesLoop alloc
          (1 ||| (if opts.writable then 2 else 0) |||
            (if opts.user then 4 else 0) |||
            (if opts.disable_cache then 16 else 0)) s
          ((List.range n).map (fun i => (s + 4096 * i, fstart + 4096 * i)))
          m a with
        | (r, m1, a1) => (r, m1, v1, a1)

/-- C8: `map_frames` applied to an empty frame range returns Ok with the
non-null dangling sentinel pointer (address 1) and performs no mutation: the
mapper, the region allocator and the frame allocator are all unchanged. -/
theorem map_frames_empty_noop {A : Type} (alloc : A → Option Nat × A)
    (m : PageMapper) (v : BumpAllocator) (a : A) (s : Nat)
    (opts : MapOptions) :
    kernelMapFrames alloc m v a s s opts = (.ok 1, m, v, a) := by
  rw [kernelMapFrames, Frame.steps_between, if_pos (Nat.le_refl s)]
  simp

/-- C10: for every well-ordered frame range (`start ≤ end`) the page-count
computation of `map_frames` succeeds, so its `.expect` branch is
unreachable; for an inverted range `steps_between` fails and `map_frames`
panics (machine halt) instead of returning a typed error. -/
theorem map_frames_inverted_panics {A : Type} (alloc : A → Option Nat × A)
    (m : PageMapper) (v : BumpAllocator) (a : A) (s e : Nat)
    (opts : MapOptions) :
    (s ≤ e → Frame.steps_between s e = some ((e - s) / 4096)) ∧
    (e < s → Frame.steps_between s e = none ∧
      kernelMapFrames alloc m v a s e opts =
        (.panicInvalidRegion, m, v, a)) := by
  constructor
  · intro h
    rw [Frame.steps_between, if_pos h]
  · intro h
    have hn : Frame.steps_between s e = none := by
      rw [Frame.steps_between, if_neg (by omega)]
    exact ⟨hn, by rw [kernelMapFrames, hn]⟩

/-- Witness for C10: a two-page range counts two steps; the inverted range
(8192, 4096) makes `map_frames` panic with the state unchanged. -/
theorem map_frames_inverted_panics_witness :
    Frame.steps_between 0 8192 = some 2 ∧
    kernelMapFrames listAlloc ⟨fun _ _ => 0, 0x1000⟩ ⟨0, 4096, 0⟩ [] 8192
        4096 ⟨false, false, false⟩ =
      (.panicInvalidRegion, ⟨fun _ _ => 0, 0x1000⟩, ⟨0, 4096, 0⟩, []) :=
  ⟨((map_frames_inverted_panics listAlloc ⟨fun _ _ => 0, 0x1000⟩ ⟨0, 4096, 0⟩
      [] 0 8192 ⟨false, false, false⟩).1 (by decide)).trans (by decide),
   ((map_frames_inverted_panics listAlloc ⟨fun _ _ => 0, 0x1000⟩ ⟨0, 4096, 0⟩
      [] 8192 4096 ⟨false, false, false⟩).2 (by decide)).2⟩


/-- Start of the kernel virtual window (`usize::MAX.wrapping_shl(47)`). -/
def c1Start : Nat := 0xFFFF800000000000

/-- Page-table state for the C1 scenarios: the walk path for the pages at
`c1Start` is fully present (tables 0x1000 -> 0x2000 -> 0x3000 -> 0x4000),
all final-level slots free, and only the first level-1 table exists. -/
def c1Mem : Mem := fun t i =>
  if t = 0x1000 ∧ i = 256 then PageTableEntry.new 7 0x2000
  else if t = 0x2000 ∧ i = 0 then PageTableEntry.new 7 0x3000
  else if t = 0x3000 ∧ i = 0 then PageTableEntry.new 7 0x4000
  else 0

/-- Start of the second C1 scenario: final-level index 510, so its third
page crosses into the next (absent) level-1 table. -/
def c1StartB : Nat := c1Start + 4096 * 510

/-- The slots (table address, slot index) read by the read-only walk,
including the absent slot the walk stops at. -/
def readSlots (vaddr : Nat) : List Nat → Mem → Nat → List (Nat × Nat)
  | [], _, _ => []
  | l :: ls, mem, t =>
    let i := levelIndex vaddr l
    let e := mem t i
    if presentBit e then (t, i) :: readSlots vaddr ls mem (PageTableEntry.frame e)
    else [(t, i)]

/-- `PhysicalMemoryAllocator::deallocate_frame` of the list-backed test
allocator: push the frame onto the free list (LIFO, like the real
freelist). -/
def listDealloc (l : List Nat) (f : Nat) : List Nat := f :: l

/-- The read-only walk, its slot trace and its huge-page check only depend
on the memory at the traced slots. -/
theorem walk_congr (vaddr : Nat) (ls : List Nat) :
    ∀ (mem mem' : Mem) (t : Nat),
      (∀ s ∈ readSlots vaddr ls mem t, mem' s.1 s.2 = mem s.1 s.2) →
      walkRead vaddr ls mem' t = walkRead vaddr ls mem t ∧
      readSlots vaddr ls mem' t = readSlots vaddr ls mem t ∧
      readPathNoHuge vaddr ls mem' t = readPathNoHuge vaddr ls mem t := by
  induction ls with
  | nil =>
    intro mem mem' t _
    exact ⟨rfl, rfl, rfl⟩
  | cons l ls ih =>
    intro mem mem' t h
    have hhead : mem' t (levelIndex vaddr l) = mem t (levelIndex vaddr l) := by
      apply h (t, levelIndex vaddr l)
      simp only [readSlots]
      split
      · exact List.mem_cons_self _ _
      · exact List.mem_singleton.mpr rfl
    by_cases hp : presentBit (mem t (levelIndex vaddr l)) = true
    · have htail : ∀ s ∈ readSlots vaddr ls mem
          (PageTableEntry.frame (mem t (levelIndex vaddr l))),
          mem' s.1 s.2 = mem s.1 s.2 := by
        intro s hs
        apply h
        simp only [readSlots, hp, if_true]
        exact List.mem_cons_of_mem _ hs
      rcases ih mem mem' (PageTableEntry.frame (mem t (levelIndex vaddr l)))
        htail with ⟨hw, hsl, hnh⟩
      refine ⟨?_, ?_, ?_⟩
      · simp only [walkRead, hhead, hp, if_true, hw]
      · simp only [readSlots, hhead, hp, if_true, hsl]
      · simp only [readPathNoHuge, hhead, hp, if_true, hnh]
    · refine ⟨?_, ?_, ?_⟩
      · simp [walkRead, hhead, hp]
      · simp [readSlots, hhead, hp]
      · simp [readPathNoHuge, hhead, hp]

/-- A write outside the traced slots preserves the walk, the trace and the
huge-page check. -/
theorem walk_congr_write (vaddr : Nat) (ls : List Nat) (mem : Mem)
    (t u v x : Nat) (hnot : (u, v) ∉ readSlots vaddr ls mem t) :
    walkRead vaddr ls (mem.write u v x) t = walkRead vaddr ls mem t ∧
    readSlots vaddr ls (mem.write u v x) t = readSlots vaddr ls mem t ∧
    readPathNoHuge vaddr ls (mem.write u v x) t =
      readPathNoHuge vaddr ls mem t := by
  apply walk_congr
  intro s hs
  have hne : ¬(s.1 = u ∧ s.2 = v) := by
    rintro ⟨h1, h2⟩
    apply hnot
    have : s = (u, v) := Prod.ext h1 h2
    rw [← this]
    exact hs
  simp [Mem.write, hne]

/-- An in-field frame value, stored raw, is not present. -/
theorem presentBit_infield {f : Nat} (hf : f &&& FRAME_MASK = f) :
    presentBit f = false := by
  rw [← hf]
  exact presentBit_frame f

/-- When the read-only walk stops at an absent entry (meeting no huge-page
leaf before it) and the allocator fails, the creating walk of `map_page`
fails with `oom`, leaving memory untouched: the failure happens at the first
absent level, before any table is zeroed or installed. -/
theorem walkCreate_oom_of_absent {A : Type} (alloc : A → Option Nat × A)
    (vaddr : Nat) (ls : List Nat) :
    ∀ (mem : Mem) (t : Nat) (a a1 : A),
      walkRead vaddr ls mem t = none →
      readPathNoHuge vaddr ls mem t = true →
      alloc a = (none, a1) →
      walkCreate alloc vaddr ls mem a t = .oom mem a1 := by
  induction ls with
  | nil =>
    intro mem t a a1 hw _ _
    simp [walkRead] at hw
  | cons l ls ih =>
    intro mem t a a1 hw hh hal
    by_cases hp : presentBit (mem t (levelIndex vaddr l)) = true
    · simp only [walkRead, hp, if_true] at hw
      simp only [readPathNoHuge, hp, if_true, Bool.and_eq_true] at hh
      have hnh : hugeBit (mem t (levelIndex vaddr l)) = false := by
        rcases hh with ⟨h1, _⟩
        simp at h1
        exact h1
      simp only [walkCreate, hp, if_true, hnh]
      rw [ih mem (PageTableEntry.frame (mem t (levelIndex vaddr l))) a a1 hw
        hh.2 hal]
      simp
    · simp only [walkCreate, hp, if_false]
      rw [hal]
      simp

/-- Successful single-page map on a fully present walk path: `map_page`
writes `PageTableEntry::new(3, f)` into the final slot, touches nothing
else (and not the allocator), and the subsequent `translate_page` (the
`assert_eq!` in `allocate`) returns exactly `f`. -/
theorem map_page_step {A : Type} (alloc : A → Option Nat × A) (a : A)
    (l4 : Nat) (mem : Mem) (p f t : Nat)
    (hr : walkRead p [3, 2, 1] mem l4 = some t)
    (hh : readPathNoHuge p [3, 2, 1] mem l4 = true)
    (hnp : presentBit (mem t (levelIndex p 0)) = false)
    (hf : f &&& FRAME_MASK = f)
    (hself : (t, levelIndex p 0) ∉ readSlots p [3, 2, 1] mem l4) :
    PageMapper.map_page alloc ⟨mem, l4⟩ a p f 3 =
      (.ok, ⟨mem.write t (levelIndex p 0) (PageTableEntry.new 3 f), l4⟩, a) ∧
    PageMapper.translate_page
      ⟨mem.write t (levelIndex p 0) (PageTableEntry.new 3 f), l4⟩ p =
      some f := by
  rcases walkRead_walkCreate alloc a p [3, 2, 1] mem l4 t hr hh with ⟨path, hpc⟩
  constructor
  · simp only [PageMapper.map_page, hpc, hnp]
    simp
  · have hwr := (walk_congr_write p [3, 2, 1] mem l4 t (levelIndex p 0)
      (PageTableEntry.new 3 f) hself).1
    simp only [PageMapper.translate_page, PageMapper.get_entry]
    rw [hwr, hr]
    have hvv : (mem.write t (levelIndex p 0) (PageTableEntry.new 3 f)) t
        (levelIndex p 0) = PageTableEntry.new 3 f := by
      simp [Mem.write]
    simp [hvv, presentBit_new (by decide : (3 : Nat) &&& 1 = 1) hf,
      frame_new hf]

/-- Unmapping a page whose final slot holds `PageTableEntry::new(3, f)`:
`unmap_page` returns `f` and overwrites the slot with the raw frame bits. -/
theorem unmap_page_step (l4 : Nat) (mem : Mem) (p f t : Nat)
    (hr : walkRead p [3, 2, 1] mem l4 = some t)
    (hval : mem t (levelIndex p 0) = PageTableEntry.new 3 f)
    (hf : f &&& FRAME_MASK = f) :
    PageMapper.unmap_page ⟨mem, l4⟩ p =
      (some f, ⟨mem.write t (levelIndex p 0) f, l4⟩) := by
  have hge : PageMapper.get_entry ⟨mem, l4⟩ p = some (t, levelIndex p 0) := by
    simp only [PageMapper.get_entry]
    rw [hr]
    rfl
  simp only [PageMapper.unmap_page, hge, hval,
    presentBit_new (by decide : (3 : Nat) &&& 1 = 1) hf, if_true]
  rw [frame_new hf, new_zero_flags]

/-- The `DeallocRegion` rollback, run over mapped pages with pairwise
distinct final slots that stay clear of every walk's traced slots: it
succeeds, pushes the mapped frames onto the free list in reverse order,
touches memory only at the mapped final slots, and leaves every rolled-back
page translating to `none`. -/
theorem rollbackRegion_spec (l4 : Nat) (tbl : Nat → Nat) :
    ∀ (mapped : List (Nat × Nat)) (mem : Mem) (FS : List Nat),
      (∀ pf ∈ mapped, pf.2 &&& FRAME_MASK = pf.2) →
      (∀ pf ∈ mapped, walkRead pf.1 [3, 2, 1] mem l4 = some (tbl pf.1)) →
      (∀ pf ∈ mapped, mem (tbl pf.1) (levelIndex pf.1 0) =
        PageTableEntry.new 3 pf.2) →
      (∀ pf ∈ mapped, ∀ qf ∈ mapped,
        (tbl pf.1, levelIndex pf.1 0) ∉ readSlots qf.1 [3, 2, 1] mem l4) →
      List.Pairwise (fun pf qf => (tbl pf.1, levelIndex pf.1 0) ≠
        (tbl qf.1, levelIndex qf.1 0)) mapped →
      ∃ memOut,
        rollbackRegion listDealloc ⟨mem, l4⟩ FS (mapped.map Prod.fst) =
          some (⟨memOut, l4⟩, (mapped.map Prod.snd).reverse ++ FS) ∧
        (∀ a b, (∀ pf ∈ mapped, ¬(a = tbl pf.1 ∧ b = levelIndex pf.1 0)) →
          memOut a b = mem a b) ∧
        (∀ pf ∈ mapped, PageMapper.translate_page ⟨memOut, l4⟩ pf.1 = none) := by
  intro mapped
  induction mapped with
  | nil =>
    intro mem FS _ _ _ _ _
    exact ⟨mem, rfl, fun a b _ => rfl,
      fun pf hpf => absurd hpf (List.not_mem_nil pf)⟩
  | cons pf0 rest ih =>
    obtain ⟨p, f⟩ := pf0
    intro mem FS hmf hmw hms hdisj hnd
    have hf : f &&& FRAME_MASK = f := hmf (p, f) (List.mem_cons_self _ _)
    have hw : walkRead p [3, 2, 1] mem l4 = some (tbl p) :=
      hmw (p, f) (List.mem_cons_self _ _)
    have hs : mem (tbl p) (levelIndex p 0) = PageTableEntry.new 3 f :=
      hms (p, f) (List.mem_cons_self _ _)
    have hself : (tbl p, levelIndex p 0) ∉ readSlots p [3, 2, 1] mem l4 :=
      hdisj (p, f) (List.mem_cons_self _ _) (p, f) (List.mem_cons_self _ _)
    have hndh := (List.pairwise_cons.mp hnd).1
    have hndt := (List.pairwise_cons.mp hnd).2
    have hunmap := unmap_page_step l4 mem p f (tbl p) hw hs hf
    -- invariants for the tail in the written memory
    have hmw1 : ∀ qf ∈ rest, walkRead qf.1 [3, 2, 1]
        (mem.write (tbl p) (levelIndex p 0) f) l4 = some (tbl qf.1) := by
      intro qf hqf
      rw [(walk_congr_write qf.1 [3, 2, 1] mem l4 (tbl p) (levelIndex p 0) f
        (hdisj (p, f) (List.mem_cons_self _ _) qf
          (List.mem_cons_of_mem _ hqf))).1]
      exact hmw qf (List.mem_cons_of_mem _ hqf)
    have hms1 : ∀ qf ∈ rest, (mem.write (tbl p) (levelIndex p 0) f)
        (tbl qf.1) (levelIndex qf.1 0) = PageTableEntry.new 3 qf.2 := by
      intro qf hqf
      have hne : ¬(tbl qf.1 = tbl p ∧ levelIndex qf.1 0 = levelIndex p 0) := by
        rintro ⟨h1, h2⟩
        exact hndh qf hqf (by rw [h1, h2])
      rw [Mem.write]
      simp only [hne, if_false]
      exact hms qf (List.mem_cons_of_mem _ hqf)
    have hdisj1 : ∀ pf ∈ rest, ∀ qf ∈ rest,
        (tbl pf.1, levelIndex pf.1 0) ∉ readSlots qf.1 [3, 2, 1]
          (mem.write (tbl p) (levelIndex p 0) f) l4 := by
      intro pf hpf qf hqf
      rw [(walk_congr_write qf.1 [3, 2, 1] mem l4 (tbl p) (levelIndex p 0) f
        (hdisj (p, f) (List.mem_cons_self _ _) qf
          (List.mem_cons_of_mem _ hqf))).2.1]
      exact hdisj pf (List.mem_cons_of_mem _ hpf) qf
        (List.mem_cons_of_mem _ hqf)
    rcases ih (mem.write (tbl p) (levelIndex p 0) f) (f :: FS)
      (fun qf hqf => hmf qf (List.mem_cons_of_mem _ hqf)) hmw1 hms1 hdisj1
      hndt with ⟨memOut, heq, hagree, htrans⟩
    refine ⟨memOut, ?_, ?_, ?_⟩
    · simp only [List.map_cons, rollbackRegion, hunmap, listDealloc]
      rw [heq]
      simp [List.reverse_cons, List.append_assoc]
    · intro a b hab
      rw [hagree a b (fun qf hqf => hab qf (List.mem_cons_of_mem _ hqf))]
      have hne : ¬(a = tbl p ∧ b = levelIndex p 0) :=
        hab (p, f) (List.mem_cons_self _ _)
      simp [Mem.write, hne]
    · intro qf hqf
      rcases List.mem_cons.mp hqf with hhead | htail
      · subst hhead
        -- the head page: walk intact, slot holds the raw frame
        have hslots1 : readSlots p [3, 2, 1]
            (mem.write (tbl p) (levelIndex p 0) f) l4 =
            readSlots p [3, 2, 1] mem l4 :=
          (walk_congr_write p [3, 2, 1] mem l4 (tbl p) (levelIndex p 0) f
            hself).2.1
        have hagree2 : ∀ s ∈ readSlots p [3, 2, 1]
            (mem.write (tbl p) (levelIndex p 0) f) l4,
            memOut s.1 s.2 =
              (mem.write (tbl p) (levelIndex p 0) f) s.1 s.2 := by
          intro s hs
          rw [hslots1] at hs
          apply hagree
          intro qf' hqf' hc
          apply hdisj qf' (List.mem_cons_of_mem _ hqf') (p, f)
            (List.mem_cons_self _ _)
          have : s = (tbl qf'.1, levelIndex qf'.1 0) :=
            Prod.ext hc.1 hc.2
          rw [← this]
          exact hs
        have hwOut : walkRead p [3, 2, 1] memOut l4 = some (tbl p) := by
          rw [(walk_congr p [3, 2, 1]
            (mem.write (tbl p) (levelIndex p 0) f) memOut l4 hagree2).1]
          rw [(walk_congr_write p [3, 2, 1] mem l4 (tbl p) (levelIndex p 0) f
            hself).1]
          exact hw
        have hslotOut : memOut (tbl p) (levelIndex p 0) = f := by
          rw [hagree (tbl p) (levelIndex p 0) (fun qf' hqf' hc =>
            hndh qf' hqf' (by rw [hc.1, hc.2]))]
          simp [Mem.write]
        simp only [PageMapper.translate_page, PageMapper.get_entry]
        rw [hwOut]
        simp [hslotOut, presentBit_infield hf]
      · exact htrans qf htail

/-- The per-page loop of `allocate` with a list-backed allocator holding
fewer frames than pages remain: it maps one page per available frame, then
the frame allocation fails and the rollback unwinds everything.  The loop
returns the physical-allocation error, the allocator ends holding exactly
the frames of all mapped pages (the accumulated prefix and the pages zipped
with the available frames), and every such page translates to `none`. -/
theorem allocLoop_spec (l4 : Nat) (tbl : Nat → Nat) (start : Nat) :
    ∀ (FS : List Nat) (todo : List Nat) (mapped : List (Nat × Nat))
      (mem : Mem),
      FS.length < todo.length →
      (∀ f ∈ FS, f &&& FRAME_MASK = f) →
      (∀ pf ∈ mapped, pf.2 &&& FRAME_MASK = pf.2) →
      (∀ pf ∈ mapped, walkRead pf.1 [3, 2, 1] mem l4 = some (tbl pf.1)) →
      (∀ pf ∈ mapped, mem (tbl pf.1) (levelIndex pf.1 0) =
        PageTableEntry.new 3 pf.2) →
      (∀ p ∈ todo.take FS.length,
        walkRead p [3, 2, 1] mem l4 = some (tbl p)) →
      (∀ p ∈ todo.take FS.length,
        readPathNoHuge p [3, 2, 1] mem l4 = true) →
      (∀ p ∈ todo.take FS.length,
        presentBit (mem (tbl p) (levelIndex p 0)) = false) →
      (∀ p ∈ mapped.map Prod.fst ++ todo.take FS.length,
        ∀ q ∈ mapped.map Prod.fst ++ todo.take FS.length,
        (tbl p, levelIndex p 0) ∉ readSlots q [3, 2, 1] mem l4) →
      List.Pairwise
        (fun p q => (tbl p, levelIndex p 0) ≠ (tbl q, levelIndex q 0))
        (mapped.map Prod.fst ++ todo.take FS.length) →
      ∃ memOut,
        allocLoop listAlloc listDealloc start (mapped.map Prod.fst) todo
          ⟨mem, l4⟩ FS =
          (.errPhys, ⟨memOut, l4⟩,
            ((mapped ++ todo.zip FS).map Prod.snd).reverse) ∧
        ∀ p ∈ (mapped ++ todo.zip FS).map Prod.fst,
          PageMapper.translate_page ⟨memOut, l4⟩ p = none := by
  intro FS
  induction FS with
  | nil =>
    intro todo mapped mem hlen _ hmf hmw hms _ _ _ hdisj hnd
    cases todo with
    | nil => simp at hlen
    | cons p rest =>
      simp only [List.length_nil, List.take_zero, List.append_nil]
        at hdisj hnd
      have hdisjM : ∀ pf ∈ mapped, ∀ qf ∈ mapped,
          (tbl pf.1, levelIndex pf.1 0) ∉
            readSlots qf.1 [3, 2, 1] mem l4 := by
        intro pf hpf qf hqf
        exact hdisj pf.1 (List.mem_map.mpr ⟨pf, hpf, rfl⟩)
          qf.1 (List.mem_map.mpr ⟨qf, hqf, rfl⟩)
      have hndM := List.pairwise_map.mp hnd
      rcases rollbackRegion_spec l4 tbl mapped mem [] hmf hmw hms hdisjM
        hndM with ⟨memOut, heq, _, htrans⟩
      refine ⟨memOut, ?_, ?_⟩
      · simp only [allocLoop, listAlloc, heq]
        simp
      · intro q hq
        simp only [List.zip_nil_right, List.append_nil] at hq
        rcases List.mem_map.mp hq with ⟨pf, hpf, hq'⟩
        rw [← hq']
        exact htrans pf hpf
  | cons f FS' ih =>
    intro todo mapped mem hlen hFS hmf hmw hms htw hth hts hdisj hnd
    cases todo with
    | nil => simp at hlen
    | cons p rest =>
      simp only [List.length_cons, List.take_succ_cons] at htw
      simp only [List.length_cons, List.take_succ_cons] at hth
      simp only [List.length_cons, List.take_succ_cons] at hts
      simp only [List.length_cons, List.take_succ_cons] at hdisj
      simp only [List.length_cons, List.take_succ_cons] at hnd
      have hf : f &&& FRAME_MASK = f := hFS f (List.mem_cons_self _ _)
      have hpP : p ∈ mapped.map Prod.fst ++ (p :: rest.take FS'.length) :=
        List.mem_append_right _ (List.mem_cons_self _ _)
      have hwp : walkRead p [3, 2, 1] mem l4 = some (tbl p) :=
        htw p (List.mem_cons_self _ _)
      have hhp : readPathNoHuge p [3, 2, 1] mem l4 = true :=
        hth p (List.mem_cons_self _ _)
      have hsp : presentBit (mem (tbl p) (levelIndex p 0)) = false :=
        hts p (List.mem_cons_self _ _)
      have hselfp : (tbl p, levelIndex p 0) ∉
          readSlots p [3, 2, 1] mem l4 := hdisj p hpP p hpP
      have hstep := map_page_step listAlloc FS' l4 mem p f (tbl p) hwp hhp
        hsp hf hselfp
      have hmw1 : ∀ pf ∈ mapped ++ [(p, f)],
          walkRead pf.1 [3, 2, 1]
            (mem.write (tbl p) (levelIndex p 0) (PageTableEntry.new 3 f))
            l4 = some (tbl pf.1) := by
        intro pf hpf
        rcases List.mem_append.mp hpf with hm | hone
        · rw [(walk_congr_write pf.1 [3, 2, 1] mem l4 (tbl p)
            (levelIndex p 0) (PageTableEntry.new 3 f)
            (hdisj p hpP pf.1
              (List.mem_append_left _
                (List.mem_map.mpr ⟨pf, hm, rfl⟩)))).1]
          exact hmw pf hm
        · have hpf' : pf = (p, f) := List.mem_singleton.mp hone
          subst hpf'
          rw [(walk_congr_write p [3, 2, 1] mem l4 (tbl p)
            (levelIndex p 0) (PageTableEntry.new 3 f) hselfp).1]
          exact hwp
      have hms1 : ∀ pf ∈ mapped ++ [(p, f)],
          (mem.write (tbl p) (levelIndex p 0) (PageTableEntry.new 3 f))
            (tbl pf.1) (levelIndex pf.1 0) = PageTableEntry.new 3 pf.2 := by
        intro pf hpf
        rcases List.mem_append.mp hpf with hm | hone
        · have hne : ¬(tbl pf.1 = tbl p ∧
              levelIndex pf.1 0 = levelIndex p 0) := by
            rintro ⟨h1, h2⟩
            exact (List.pairwise_append.mp hnd).2.2 pf.1
              (List.mem_map.mpr ⟨pf, hm, rfl⟩) p
              (List.mem_cons_self _ _) (by rw [h1, h2])
          rw [Mem.write]
          simp only [hne, if_false]
          exact hms pf hm
        · have hpf' : pf = (p, f) := List.mem_singleton.mp hone
          subst hpf'
          simp [Mem.write]
      have hmemP : ∀ x,
          x ∈ (mapped ++ [(p, f)]).map Prod.fst ++ rest.take FS'.length ↔
          x ∈ mapped.map Prod.fst ++ (p :: rest.take FS'.length) := by
        intro x
        simp [List.mem_append, or_assoc]
      have hcongr1 : ∀ q ∈ mapped.map Prod.fst ++ (p :: rest.take FS'.length),
          readSlots q [3, 2, 1]
            (mem.write (tbl p) (levelIndex p 0) (PageTableEntry.new 3 f))
            l4 = readSlots q [3, 2, 1] mem l4 := by
        intro q hq
        exact (walk_congr_write q [3, 2, 1] mem l4 (tbl p) (levelIndex p 0)
          (PageTableEntry.new 3 f) (hdisj p hpP q hq)).2.1
      have htw1 : ∀ q ∈ rest.take FS'.length,
          walkRead q [3, 2, 1]
            (mem.write (tbl p) (levelIndex p 0) (PageTableEntry.new 3 f))
            l4 = some (tbl q) := by
        intro q hq
        rw [(walk_congr_write q [3, 2, 1] mem l4 (tbl p) (levelIndex p 0)
          (PageTableEntry.new 3 f)
          (hdisj p hpP q (List.mem_append_right _
            (List.mem_cons_of_mem _ hq)))).1]
        exact htw q (List.mem_cons_of_mem _ hq)
      have hth1 : ∀ q ∈ rest.take FS'.length,
          readPathNoHuge q [3, 2, 1]
            (mem.write (tbl p) (levelIndex p 0) (PageTableEntry.new 3 f))
            l4 = true := by
        intro q hq
        rw [(walk_congr_write q [3, 2, 1] mem l4 (tbl p) (levelIndex p 0)
          (PageTableEntry.new 3 f)
          (hdisj p hpP q (List.mem_append_right _
            (List.mem_cons_of_mem _ hq)))).2.2]
        exact hth q (List.mem_cons_of_mem _ hq)
      have hts1 : ∀ q ∈ rest.take FS'.length,
          presentBit ((mem.write (tbl p) (levelIndex p 0)
            (PageTableEntry.new 3 f)) (tbl q) (levelIndex q 0)) = false := by
        intro q hq
        have hne : ¬(tbl q = tbl p ∧ levelIndex q 0 = levelIndex p 0) := by
          rintro ⟨h1, h2⟩
          have hp2 := (List.pairwise_append.mp hnd).2.1
          exact (List.pairwise_cons.mp hp2).1 q hq (by rw [h1, h2])
        rw [Mem.write]
        simp only [hne, if_false]
        exact hts q (List.mem_cons_of_mem _ hq)
      have hdisj1 : ∀ a ∈ (mapped ++ [(p, f)]).map Prod.fst ++
            rest.take FS'.length,
          ∀ b ∈ (mapped ++ [(p, f)]).map Prod.fst ++ rest.take FS'.length,
          (tbl a, levelIndex a 0) ∉ readSlots b [3, 2, 1]
            (mem.write (tbl p) (levelIndex p 0) (PageTableEntry.new 3 f))
            l4 := by
        intro a ha b hb
        rw [hcongr1 b ((hmemP b).mp hb)]
        exact hdisj a ((hmemP a).mp ha) b ((hmemP b).mp hb)
      have hnd1 : List.Pairwise
          (fun a b => (tbl a, levelIndex a 0) ≠ (tbl b, levelIndex b 0))
          ((mapped ++ [(p, f)]).map Prod.fst ++ rest.take FS'.length) := by
        have hPeq : (mapped ++ [(p, f)]).map Prod.fst ++
            rest.take FS'.length =
            mapped.map Prod.fst ++ (p :: rest.take FS'.length) := by
          simp
        rw [hPeq]
        exact hnd
      have hmf1 : ∀ pf ∈ mapped ++ [(p, f)],
          pf.2 &&& FRAME_MASK = pf.2 := by
        intro pf hpf
        rcases List.mem_append.mp hpf with hm | hone
        · exact hmf pf hm
        · rw [List.mem_singleton.mp hone]
          exact hf
      have hlen1 : FS'.length < rest.length := by
        simp at hlen
        omega
      rcases ih rest (mapped ++ [(p, f)])
        (mem.write (tbl p) (levelIndex p 0) (PageTableEntry.new 3 f))
        hlen1 (fun x hx => hFS x (List.mem_cons_of_mem _ hx)) hmf1 hmw1 hms1
        htw1 hth1 hts1 hdisj1 hnd1 with ⟨memOut, heq, htrans⟩
      refine ⟨memOut, ?_, ?_⟩
      · simp only [allocLoop, listAlloc]
        rw [hstep.1]
        dsimp only
        rw [if_pos hstep.2]
        have hacc : mapped.map Prod.fst ++ [p] =
            (mapped ++ [(p, f)]).map Prod.fst := by
          simp
        rw [hacc, heq]
        simp [List.zip_cons_cons, List.append_assoc]
      · intro q hq
        apply htrans
        simp only [List.zip_cons_cons] at hq
        simpa [List.append_assoc] using hq
/-- The per-page loop when the allocator holds one frame per good page plus
one extra frame, and the next page's walk hits an absent intermediate level:
the extra frame is consumed for that page, its `map_page` fails inside
`walkCreate` with `oom` before writing anything, the `FrameDropGuard` puts
the extra frame back, and the rollback unwinds every mapped page.  The loop
returns the physical-allocation error, the allocator ends holding the
frames of all mapped pages plus the extra frame, and every mapped page
translates to `none`. -/
theorem allocLoop_mapfail_spec (l4 : Nat) (tbl : Nat → Nat)
    (start fbad pbad : Nat) :
    ∀ (FSg : List Nat) (todo : List Nat) (mapped : List (Nat × Nat))
      (mem : Mem),
      todo[FSg.length]? = some pbad →
      (∀ f ∈ FSg, f &&& FRAME_MASK = f) →
      (∀ pf ∈ mapped, pf.2 &&& FRAME_MASK = pf.2) →
      (∀ pf ∈ mapped, walkRead pf.1 [3, 2, 1] mem l4 = some (tbl pf.1)) →
      (∀ pf ∈ mapped, mem (tbl pf.1) (levelIndex pf.1 0) =
        PageTableEntry.new 3 pf.2) →
      (∀ p ∈ todo.take FSg.length,
        walkRead p [3, 2, 1] mem l4 = some (tbl p)) →
      (∀ p ∈ todo.take FSg.length,
        readPathNoHuge p [3, 2, 1] mem l4 = true) →
      (∀ p ∈ todo.take FSg.length,
        presentBit (mem (tbl p) (levelIndex p 0)) = false) →
      walkRead pbad [3, 2, 1] mem l4 = none →
      readPathNoHuge pbad [3, 2, 1] mem l4 = true →
      (∀ q ∈ mapped.map Prod.fst ++ todo.take FSg.length,
        (tbl q, levelIndex q 0) ∉ readSlots pbad [3, 2, 1] mem l4) →
      (∀ p ∈ mapped.map Prod.fst ++ todo.take FSg.length,
        ∀ q ∈ mapped.map Prod.fst ++ todo.take FSg.length,
        (tbl p, levelIndex p 0) ∉ readSlots q [3, 2, 1] mem l4) →
      List.Pairwise
        (fun p q => (tbl p, levelIndex p 0) ≠ (tbl q, levelIndex q 0))
        (mapped.map Prod.fst ++ todo.take FSg.length) →
      ∃ memOut,
        allocLoop listAlloc listDealloc start (mapped.map Prod.fst) todo
          ⟨mem, l4⟩ (FSg ++ [fbad]) =
          (.errPhys, ⟨memOut, l4⟩,
            ((mapped ++ todo.zip FSg).map Prod.snd).reverse ++ [fbad]) ∧
        ∀ p ∈ (mapped ++ todo.zip FSg).map Prod.fst,
          PageMapper.translate_page ⟨memOut, l4⟩ p = none := by
  intro FSg
  induction FSg with
  | nil =>
    intro todo mapped mem hbad _ hmf hmw hms _ _ _ hwb hhb _ hdisj hnd
    cases todo with
    | nil => simp at hbad
    | cons p rest =>
      simp only [List.length_nil, List.getElem?_cons_zero,
        Option.some.injEq] at hbad
      subst hbad
      simp only [List.length_nil, List.take_zero, List.append_nil] at hdisj
      simp only [List.length_nil, List.take_zero, List.append_nil] at hnd
      have hdisjM : ∀ pf ∈ mapped, ∀ qf ∈ mapped,
          (tbl pf.1, levelIndex pf.1 0) ∉
            readSlots qf.1 [3, 2, 1] mem l4 := by
        intro pf hpf qf hqf
        exact hdisj pf.1 (List.mem_map.mpr ⟨pf, hpf, rfl⟩)
          qf.1 (List.mem_map.mpr ⟨qf, hqf, rfl⟩)
      have hndM := List.pairwise_map.mp hnd
      rcases rollbackRegion_spec l4 tbl mapped mem [fbad] hmf hmw hms hdisjM
        hndM with ⟨memOut, heq, _, htrans⟩
      have hoom := walkCreate_oom_of_absent listAlloc p [3, 2, 1] mem l4
        [] [] hwb hhb rfl
      refine ⟨memOut, ?_, ?_⟩
      · simp only [List.nil_append, allocLoop, listAlloc,
          PageMapper.map_page, hoom, listDealloc, heq]
        simp
      · intro q hq
        simp only [List.zip_nil_right, List.append_nil] at hq
        rcases List.mem_map.mp hq with ⟨pf, hpf, hq'⟩
        rw [← hq']
        exact htrans pf hpf
  | cons f FSg' ih =>
    intro todo mapped mem hbad hFS hmf hmw hms htw hth hts hwb hhb hdb
      hdisj hnd
    cases todo with
    | nil => simp at hbad
    | cons p rest =>
      simp only [List.length_cons, List.getElem?_cons_succ] at hbad
      simp only [List.length_cons, List.take_succ_cons] at htw
      simp only [List.length_cons, List.take_succ_cons] at hth
      simp only [List.length_cons, List.take_succ_cons] at hts
      simp only [List.length_cons, List.take_succ_cons] at hdb
      simp only [List.length_cons, List.take_succ_cons] at hdisj
      simp only [List.length_cons, List.take_succ_cons] at hnd
      have hf : f &&& FRAME_MASK = f := hFS f (List.mem_cons_self _ _)
      have hpP : p ∈ mapped.map Prod.fst ++ (p :: rest.take FSg'.length) :=
        List.mem_append_right _ (List.mem_cons_self _ _)
      have hwp : walkRead p [3, 2, 1] mem l4 = some (tbl p) :=
        htw p (List.mem_cons_self _ _)
      have hhp : readPathNoHuge p [3, 2, 1] mem l4 = true :=
        hth p (List.mem_cons_self _ _)
      have hsp : presentBit (mem (tbl p) (levelIndex p 0)) = false :=
        hts p (List.mem_cons_self _ _)
      have hselfp : (tbl p, levelIndex p 0) ∉
          readSlots p [3, 2, 1] mem l4 := hdisj p hpP p hpP
      have hstep := map_page_step listAlloc (FSg' ++ [fbad]) l4 mem p f
        (tbl p) hwp hhp hsp hf hselfp
      have hmw1 : ∀ pf ∈ mapped ++ [(p, f)],
          walkRead pf.1 [3, 2, 1]
            (mem.write (tbl p) (levelIndex p 0) (PageTableEntry.new 3 f))
            l4 = some (tbl pf.1) := by
        intro pf hpf
        rcases List.mem_append.mp hpf with hm | hone
        · rw [(walk_congr_write pf.1 [3, 2, 1] mem l4 (tbl p)
            (levelIndex p 0) (PageTableEntry.new 3 f)
            (hdisj p hpP pf.1
              (List.mem_append_left _
                (List.mem_map.mpr ⟨pf, hm, rfl⟩)))).1]
          exact hmw pf hm
        · have hpf' : pf = (p, f) := List.mem_singleton.mp hone
          subst hpf'
          rw [(walk_congr_write p [3, 2, 1] mem l4 (tbl p)
            (levelIndex p 0) (PageTableEntry.new 3 f) hselfp).1]
          exact hwp
      have hms1 : ∀ pf ∈ mapped ++ [(p, f)],
          (mem.write (tbl p) (levelIndex p 0) (PageTableEntry.new 3 f))
            (tbl pf.1) (levelIndex pf.1 0) = PageTableEntry.new 3 pf.2 := by
        intro pf hpf
        rcases List.mem_append.mp hpf with hm | hone
        · have hne : ¬(tbl pf.1 = tbl p ∧
              levelIndex pf.1 0 = levelIndex p 0) := by
            rintro ⟨h1, h2⟩
            exact (List.pairwise_append.mp hnd).2.2 pf.1
              (List.mem_map.mpr ⟨pf, hm, rfl⟩) p
              (List.mem_cons_self _ _) (by rw [h1, h2])
          rw [Mem.write]
          simp only [hne, if_false]
          exact hms pf hm
        · have hpf' : pf = (p, f) := List.mem_singleton.mp hone
          subst hpf'
          simp [Mem.write]
      have hmemP : ∀ x,
          x ∈ (mapped ++ [(p, f)]).map Prod.fst ++ rest.take FSg'.length ↔
          x ∈ mapped.map Prod.fst ++ (p :: rest.take FSg'.length) := by
        intro x
        simp [List.mem_append, or_assoc]
      have hcongr1 : ∀ q ∈ mapped.map Prod.fst ++
            (p :: rest.take FSg'.length),
          readSlots q [3, 2, 1]
            (mem.write (tbl p) (levelIndex p 0) (PageTableEntry.new 3 f))
            l4 = readSlots q [3, 2, 1] mem l4 := by
        intro q hq
        exact (walk_congr_write q [3, 2, 1] mem l4 (tbl p) (levelIndex p 0)
          (PageTableEntry.new 3 f) (hdisj p hpP q hq)).2.1
      have htw1 : ∀ q ∈ rest.take FSg'.length,
          walkRead q [3, 2, 1]
            (mem.write (tbl p) (levelIndex p 0) (PageTableEntry.new 3 f))
            l4 = some (tbl q) := by
        intro q hq
        rw [(walk_congr_write q [3, 2, 1] mem l4 (tbl p) (levelIndex p 0)
          (PageTableEntry.new 3 f)
          (hdisj p hpP q (List.mem_append_right _
            (List.mem_cons_of_mem _ hq)))).1]
        exact htw q (List.mem_cons_of_mem _ hq)
      have hth1 : ∀ q ∈ rest.take FSg'.length,
          readPathNoHuge q [3, 2, 1]
            (mem.write (tbl p) (levelIndex p 0) (PageTableEntry.new 3 f))
            l4 = true := by
        intro q hq
        rw [(walk_congr_write q [3, 2, 1] mem l4 (tbl p) (levelIndex p 0)
          (PageTableEntry.new 3 f)
          (hdisj p hpP q (List.mem_append_right _
            (List.mem_cons_of_mem _ hq)))).2.2]
        exact hth q (List.mem_cons_of_mem _ hq)
      have hts1 : ∀ q ∈ rest.take FSg'.length,
          presentBit ((mem.write (tbl p) (levelIndex p 0)
            (PageTableEntry.new 3 f)) (tbl q) (levelIndex q 0)) = false := by
        intro q hq
        have hne : ¬(tbl q = tbl p ∧ levelIndex q 0 = levelIndex p 0) := by
          rintro ⟨h1, h2⟩
          have hp2 := (List.pairwise_append.mp hnd).2.1
          exact (List.pairwise_cons.mp hp2).1 q hq (by rw [h1, h2])
        rw [Mem.write]
        simp only [hne, if_false]
        exact hts q (List.mem_cons_of_mem _ hq)
      have hwb1 : walkRead pbad [3, 2, 1]
          (mem.write (tbl p) (levelIndex p 0) (PageTableEntry.new 3 f))
          l4 = none := by
        rw [(walk_congr_write pbad [3, 2, 1] mem l4 (tbl p) (levelIndex p 0)
          (PageTableEntry.new 3 f) (hdb p hpP)).1]
        exact hwb
      have hhb1 : readPathNoHuge pbad [3, 2, 1]
          (mem.write (tbl p) (levelIndex p 0) (PageTableEntry.new 3 f))
          l4 = true := by
        rw [(walk_congr_write pbad [3, 2, 1] mem l4 (tbl p) (levelIndex p 0)
          (PageTableEntry.new 3 f) (hdb p hpP)).2.2]
        exact hhb
      have hdb1 : ∀ q ∈ (mapped ++ [(p, f)]).map Prod.fst ++
            rest.take FSg'.length,
          (tbl q, levelIndex q 0) ∉ readSlots pbad [3, 2, 1]
            (mem.write (tbl p) (levelIndex p 0) (PageTableEntry.new 3 f))
            l4 := by
        intro q hq
        rw [(walk_congr_write pbad [3, 2, 1] mem l4 (tbl p) (levelIndex p 0)
          (PageTableEntry.new 3 f) (hdb p hpP)).2.1]
        exact hdb q ((hmemP q).mp hq)
      have hdisj1 : ∀ a ∈ (mapped ++ [(p, f)]).map Prod.fst ++
            rest.take FSg'.length,
          ∀ b ∈ (mapped ++ [(p, f)]).map Prod.fst ++ rest.take FSg'.length,
          (tbl a, levelIndex a 0) ∉ readSlots b [3, 2, 1]
            (mem.write (tbl p) (levelIndex p 0) (PageTableEntry.new 3 f))
            l4 := by
        intro a ha b hb
        rw [hcongr1 b ((hmemP b).mp hb)]
        exact hdisj a ((hmemP a).mp ha) b ((hmemP b).mp hb)
      have hnd1 : List.Pairwise
          (fun a b => (tbl a, levelIndex a 0) ≠ (tbl b, levelIndex b 0))
          ((mapped ++ [(p, f)]).map Prod.fst ++ rest.take FSg'.length) := by
        have hPeq : (mapped ++ [(p, f)]).map Prod.fst ++
            rest.take FSg'.length =
            mapped.map Prod.fst ++ (p :: rest.take FSg'.length) := by
          simp
        rw [hPeq]
        exact hnd
      have hmf1 : ∀ pf ∈ mapped ++ [(p, f)],
          pf.2 &&& FRAME_MASK = pf.2 := by
        intro pf hpf
        rcases List.mem_append.mp hpf with hm | hone
        · exact hmf pf hm
        · rw [List.mem_singleton.mp hone]
          exact hf
      rcases ih rest (mapped ++ [(p, f)])
        (mem.write (tbl p) (levelIndex p 0) (PageTableEntry.new 3 f))
        hbad (fun x hx => hFS x (List.mem_cons_of_mem _ hx)) hmf1 hmw1 hms1
        htw1 hth1 hts1 hwb1 hhb1 hdb1 hdisj1 hnd1 with ⟨memOut, heq, htrans⟩
      refine ⟨memOut, ?_, ?_⟩
      · simp only [List.cons_append, allocLoop, listAlloc]
        rw [hstep.1]
        dsimp only
        rw [if_pos hstep.2]
        have hacc : mapped.map Prod.fst ++ [p] =
            (mapped ++ [(p, f)]).map Prod.fst := by
          simp
        rw [hacc, heq]
        simp [List.zip_cons_cons, List.append_assoc]
      · intro q hq
        apply htrans
        simp only [List.zip_cons_cons] at hq
        simpa [List.append_assoc] using hq
/-- First components of a zip: the left list truncated to the right length. -/
theorem zip_map_fst {α β : Type} :
    ∀ (l1 : List α) (l2 : List β),
      (l1.zip l2).map Prod.fst = l1.take l2.length
  | [], _ => by simp
  | _ :: _, [] => by simp
  | a :: l1, b :: l2 => by
    simp only [List.zip_cons_cons, List.map_cons, List.length_cons,
      List.take_succ_cons, zip_map_fst l1 l2]

/-- Second components of a zip: the right list truncated to the left length. -/
theorem zip_map_snd {α β : Type} :
    ∀ (l1 : List α) (l2 : List β),
      (l1.zip l2).map Prod.snd = l2.take l1.length
  | [], _ => by simp
  | _ :: _, [] => by simp
  | a :: l1, b :: l2 => by
    simp only [List.zip_cons_cons, List.map_cons, List.length_cons,
      List.take_succ_cons, zip_map_snd l1 l2]
/-- C1.  `KernelAddrSpaceInner::allocate(n)` with a per-page step failing at
page `k < n` rolls everything back and returns the originating error,
universally in `n`, `k`, the prior memory state and the injected allocator
contents.  The hypotheses are the well-formedness of the pre-existing
paging structures on the reserved region: its first `k` pages walk through
present, non-huge intermediate levels to free final slots, the failing
page's walk behaves as each conjunct requires, and the final slots alias no
slot read during the walks.  First conjunct (frame-allocation failure at
page `k`): with exactly `k` frames available, pages `[0, k)` are mapped and
then unwound — the call returns the physical-allocation error, the
allocator ends with exactly its initial frames (so the free-frame count
equals its pre-call value), and every page of `[0, k)` translates to
`none`.  Second conjunct (`map_page` failure at page `k`): with `k + 1`
frames available but page `k`'s walk stopping at an absent intermediate
level, `map_page` fails inside table creation, the frame just obtained for
page `k` is deallocated (it was never mapped), the `k` mapped pages are
unwound likewise, and the same error is returned.  In both cases the bump
cursor stays at `pos + n * 4096`: the reserved virtual region is not
returned to the region allocator. -/
theorem allocate_rollback (v : BumpAllocator) (mem0 : Mem) (l4 : Nat)
    (tbl : Nat → Nat) (n k : Nat) (FS : List Nat)
    (hk : k < n)
    (hwin : v.pos + n * 4096 < 2 ^ 64)
    (hbound : v.pos + n * 4096 ≤ v.fullEnd)
    (hin : ∀ f ∈ FS, f &&& FRAME_MASK = f)
    (hgw : ∀ i, i < k → walkRead (v.pos + 4096 * i) [3, 2, 1] mem0 l4 =
      some (tbl (v.pos + 4096 * i)))
    (hgh : ∀ i, i < k →
      readPathNoHuge (v.pos + 4096 * i) [3, 2, 1] mem0 l4 = true)
    (hgs : ∀ i, i < k → presentBit (mem0 (tbl (v.pos + 4096 * i))
      (levelIndex (v.pos + 4096 * i) 0)) = false)
    (hdisj : ∀ i, i < k → ∀ j, j < k →
      (tbl (v.pos + 4096 * i), levelIndex (v.pos + 4096 * i) 0) ∉
        readSlots (v.pos + 4096 * j) [3, 2, 1] mem0 l4)
    (hnd : ∀ i, i < k → ∀ j, j < k → i ≠ j →
      (tbl (v.pos + 4096 * i), levelIndex (v.pos + 4096 * i) 0) ≠
      (tbl (v.pos + 4096 * j), levelIndex (v.pos + 4096 * j) 0)) :
    (FS.length = k →
      ∃ memOut,
        kernelAllocate listAlloc listDealloc ⟨mem0, l4⟩ v FS n =
          (.errPhys, ⟨memOut, l4⟩,
            ⟨v.fullStart, v.fullEnd, v.pos + n * 4096⟩, FS.reverse) ∧
        ∀ i, i < k → PageMapper.translate_page ⟨memOut, l4⟩
          (v.pos + 4096 * i) = none) ∧
    (∀ FSg fbad, FS = FSg ++ [fbad] → FSg.length = k →
      walkRead (v.pos + 4096 * k) [3, 2, 1] mem0 l4 = none →
      readPathNoHuge (v.pos + 4096 * k) [3, 2, 1] mem0 l4 = true →
      (∀ i, i < k →
        (tbl (v.pos + 4096 * i), levelIndex (v.pos + 4096 * i) 0) ∉
          readSlots (v.pos + 4096 * k) [3, 2, 1] mem0 l4) →
      ∃ memOut,
        kernelAllocate listAlloc listDealloc ⟨mem0, l4⟩ v FS n =
          (.errPhys, ⟨memOut, l4⟩,
            ⟨v.fullStart, v.fullEnd, v.pos + n * 4096⟩,
            FSg.reverse ++ [fbad]) ∧
        ∀ i, i < k → PageMapper.translate_page ⟨memOut, l4⟩
          (v.pos + 4096 * i) = none) := by
  have hvr : v.allocate_region n =
      (some (v.pos, v.pos + n * 4096),
        ⟨v.fullStart, v.fullEnd, v.pos + n * 4096⟩) := by
    rw [allocate_region_eq, if_neg (by omega), if_neg (by omega)]
  have hkn : k ≤ n := Nat.le_of_lt hk
  have hlenT : ((List.range n).map (fun i => v.pos + 4096 * i)).length = n := by
    simp
  have htake : ∀ m, m ≤ n →
      ((List.range n).map (fun i => v.pos + 4096 * i)).take m =
        (List.range m).map (fun i => v.pos + 4096 * i) := by
    intro m hm
    rw [← List.map_take, List.take_range, Nat.min_eq_left hm]
  have hndL : List.Pairwise
      (fun p q => (tbl p, levelIndex p 0) ≠ (tbl q, levelIndex q 0))
      ((List.range k).map (fun i => v.pos + 4096 * i)) := by
    rw [List.pairwise_iff_getElem]
    intro i j hi hj hij
    have hik : i < k := by simpa using hi
    have hjk : j < k := by simpa using hj
    simp only [List.getElem_map, List.getElem_range]
    exact hnd i hik j hjk (Nat.ne_of_lt hij)
  constructor
  · intro hlen
    have htk : ((List.range n).map (fun i => v.pos + 4096 * i)).take
        FS.length = (List.range k).map (fun i => v.pos + 4096 * i) := by
      rw [hlen]
      exact htake k hkn
    have h1 : ∀ p ∈ ((List.range n).map (fun i => v.pos + 4096 * i)).take
          FS.length, walkRead p [3, 2, 1] mem0 l4 = some (tbl p) := by
      intro p hp
      rw [htk] at hp
      rcases List.mem_map.mp hp with ⟨i, hi, rfl⟩
      exact hgw i (List.mem_range.mp hi)
    have h2 : ∀ p ∈ ((List.range n).map (fun i => v.pos + 4096 * i)).take
          FS.length, readPathNoHuge p [3, 2, 1] mem0 l4 = true := by
      intro p hp
      rw [htk] at hp
      rcases List.mem_map.mp hp with ⟨i, hi, rfl⟩
      exact hgh i (List.mem_range.mp hi)
    have h3 : ∀ p ∈ ((List.range n).map (fun i => v.pos + 4096 * i)).take
          FS.length, presentBit (mem0 (tbl p) (levelIndex p 0)) = false := by
      intro p hp
      rw [htk] at hp
      rcases List.mem_map.mp hp with ⟨i, hi, rfl⟩
      exact hgs i (List.mem_range.mp hi)
    have hdL : ∀ p ∈ ([] : List (Nat × Nat)).map Prod.fst ++
          ((List.range n).map (fun i => v.pos + 4096 * i)).take FS.length,
        ∀ q ∈ ([] : List (Nat × Nat)).map Prod.fst ++
          ((List.range n).map (fun i => v.pos + 4096 * i)).take FS.length,
        (tbl p, levelIndex p 0) ∉ readSlots q [3, 2, 1] mem0 l4 := by
      intro p hp q hq
      simp only [List.map_nil, List.nil_append, htk] at hp hq
      rcases List.mem_map.mp hp with ⟨i, hi, rfl⟩
      rcases List.mem_map.mp hq with ⟨j, hj, rfl⟩
      exact hdisj i (List.mem_range.mp hi) j (List.mem_range.mp hj)
    have hndL1 : List.Pairwise
        (fun p q => (tbl p, levelIndex p 0) ≠ (tbl q, levelIndex q 0))
        (([] : List (Nat × Nat)).map Prod.fst ++
          ((List.range n).map (fun i => v.pos + 4096 * i)).take
            FS.length) := by
      simp only [List.map_nil, List.nil_append, htk]
      exact hndL
    rcases allocLoop_spec l4 tbl v.pos FS
      ((List.range n).map (fun i => v.pos + 4096 * i)) [] mem0
      (by rw [hlenT]; omega) hin
      (fun pf hpf => absurd hpf (List.not_mem_nil pf))
      (fun pf hpf => absurd hpf (List.not_mem_nil pf))
      (fun pf hpf => absurd hpf (List.not_mem_nil pf))
      h1 h2 h3 hdL hndL1 with ⟨memOut, heqL, htransL⟩
    simp only [List.map_nil, List.nil_append] at heqL htransL
    refine ⟨memOut, ?_, ?_⟩
    · simp only [kernelAllocate]
      rw [hvr]
      dsimp only
      rw [heqL]
      dsimp only
      rw [zip_map_snd, hlenT, List.take_of_length_le (by omega)]
    · intro i hik
      apply htransL
      rw [zip_map_fst, hlen, htake k hkn]
      exact List.mem_map.mpr ⟨i, List.mem_range.mpr hik, rfl⟩
  · intro FSg fbad hFSeq hlenG hwk hhk hdk
    subst hFSeq
    have htk : ((List.range n).map (fun i => v.pos + 4096 * i)).take
        FSg.length = (List.range k).map (fun i => v.pos + 4096 * i) := by
      rw [hlenG]
      exact htake k hkn
    have hbad : ((List.range n).map
        (fun i => v.pos + 4096 * i))[FSg.length]? =
        some (v.pos + 4096 * k) := by
      rw [hlenG, List.getElem?_map, List.getElem?_range hk]
      rfl
    have h1 : ∀ p ∈ ((List.range n).map (fun i => v.pos + 4096 * i)).take
          FSg.length, walkRead p [3, 2, 1] mem0 l4 = some (tbl p) := by
      intro p hp
      rw [htk] at hp
      rcases List.mem_map.mp hp with ⟨i, hi, rfl⟩
      exact hgw i (List.mem_range.mp hi)
    have h2 : ∀ p ∈ ((List.range n).map (fun i => v.pos + 4096 * i)).take
          FSg.length, readPathNoHuge p [3, 2, 1] mem0 l4 = true := by
      intro p hp
      rw [htk] at hp
      rcases List.mem_map.mp hp with ⟨i, hi, rfl⟩
      exact hgh i (List.mem_range.mp hi)
    have h3 : ∀ p ∈ ((List.range n).map (fun i => v.pos + 4096 * i)).take
          FSg.length, presentBit (mem0 (tbl p) (levelIndex p 0)) = false := by
      intro p hp
      rw [htk] at hp
      rcases List.mem_map.mp hp with ⟨i, hi, rfl⟩
      exact hgs i (List.mem_range.mp hi)
    have hdbL : ∀ q ∈ ([] : List (Nat × Nat)).map Prod.fst ++
          ((List.range n).map (fun i => v.pos + 4096 * i)).take FSg.length,
        (tbl q, levelIndex q 0) ∉
          readSlots (v.pos + 4096 * k) [3, 2, 1] mem0 l4 := by
      intro q hq
      simp only [List.map_nil, List.nil_append, htk] at hq
      rcases List.mem_map.mp hq with ⟨i, hi, rfl⟩
      exact hdk i (List.mem_range.mp hi)
    have hdL : ∀ p ∈ ([] : List (Nat × Nat)).map Prod.fst ++
          ((List.range n).map (fun i => v.pos + 4096 * i)).take FSg.length,
        ∀ q ∈ ([] : List (Nat × Nat)).map Prod.fst ++
          ((List.range n).map (fun i => v.pos + 4096 * i)).take FSg.length,
        (tbl p, levelIndex p 0) ∉ readSlots q [3, 2, 1] mem0 l4 := by
      intro p hp q hq
      simp only [List.map_nil, List.nil_append, htk] at hp hq
      rcases List.mem_map.mp hp with ⟨i, hi, rfl⟩
      rcases List.mem_map.mp hq with ⟨j, hj, rfl⟩
      exact hdisj i (List.mem_range.mp hi) j (List.mem_range.mp hj)
    have hndL1 : List.Pairwise
        (fun p q => (tbl p, levelIndex p 0) ≠ (tbl q, levelIndex q 0))
        (([] : List (Nat × Nat)).map Prod.fst ++
          ((List.range n).map (fun i => v.pos + 4096 * i)).take
            FSg.length) := by
      simp only [List.map_nil, List.nil_append, htk]
      exact hndL
    have hinG : ∀ f ∈ FSg, f &&& FRAME_MASK = f :=
      fun f hf => hin f (List.mem_append_left _ hf)
    rcases allocLoop_mapfail_spec l4 tbl v.pos fbad (v.pos + 4096 * k) FSg
      ((List.range n).map (fun i => v.pos + 4096 * i)) [] mem0
      hbad hinG
      (fun pf hpf => absurd hpf (List.not_mem_nil pf))
      (fun pf hpf => absurd hpf (List.not_mem_nil pf))
      (fun pf hpf => absurd hpf (List.not_mem_nil pf))
      h1 h2 h3 hwk hhk hdbL hdL hndL1 with ⟨memOut, heqL, htransL⟩
    simp only [List.map_nil, List.nil_append] at heqL htransL
    refine ⟨memOut, ?_, ?_⟩
    · simp only [kernelAllocate]
      rw [hvr]
      dsimp only
      rw [heqL]
      dsimp only
      rw [zip_map_snd, hlenT, List.take_of_length_le (by omega)]
    · intro i hik
      apply htransL
      rw [zip_map_fst, hlenG, htake k hkn]
      exact List.mem_map.mpr ⟨i, List.mem_range.mpr hik, rfl⟩
/-- Witness for the rollback theorem: the spec's concrete scenario
`allocate(5)` with the frame allocator holding only two frames (failure on
the 3rd page), plus an `allocate(3)` whose 3rd page crosses into an absent
level-1 table with three frames available (`map_page` failure on the 3rd
page, the just-obtained third frame deallocated as well). -/
theorem allocate_rollback_witness :
    (∃ memOut,
      kernelAllocate listAlloc listDealloc ⟨c1Mem, 0x1000⟩
        ⟨c1Start, c1Start + 4096 * 512, c1Start⟩ [0x10000, 0x11000] 5 =
        (.errPhys, ⟨memOut, 0x1000⟩,
          ⟨c1Start, c1Start + 4096 * 512, c1Start + 5 * 4096⟩,
          [0x11000, 0x10000]) ∧
      ∀ i, i < 2 → PageMapper.translate_page ⟨memOut, 0x1000⟩
        (c1Start + 4096 * i) = none) ∧
    (∃ memOut,
      kernelAllocate listAlloc listDealloc ⟨c1Mem, 0x1000⟩
        ⟨c1Start, c1Start + 4096 * 1024, c1StartB⟩
        [0x10000, 0x11000, 0x12000] 3 =
        (.errPhys, ⟨memOut, 0x1000⟩,
          ⟨c1Start, c1Start + 4096 * 1024, c1StartB + 3 * 4096⟩,
          [0x11000, 0x10000, 0x12000]) ∧
      ∀ i, i < 2 → PageMapper.translate_page ⟨memOut, 0x1000⟩
        (c1StartB + 4096 * i) = none) :=
  ⟨(allocate_rollback ⟨c1Start, c1Start + 4096 * 512, c1Start⟩ c1Mem 0x1000
      (fun _ => 0x4000) 5 2 [0x10000, 0x11000] (by decide) (by decide)
      (by decide) (by decide) (by decide) (by decide) (by decide)
      (by decide) (by decide)).1 rfl,
   (allocate_rollback ⟨c1Start, c1Start + 4096 * 1024, c1StartB⟩ c1Mem
      0x1000 (fun _ => 0x4000) 3 2 [0x10000, 0x11000, 0x12000] (by decide)
      (by decide) (by decide) (by decide) (by decide) (by decide)
      (by decide) (by decide) (by decide)).2 [0x10000, 0x11000] 0x12000
      rfl rfl (by decide) (by decide) (by decide)⟩
